import Mathlib

/-!
# pageicon: icon discovery and selection

A shallow embedding of the Go package `pageicon` (`pageicon.go`, `html.go`,
`sort.go`, `logger.go`, `fetch.go`) together with theorems about its selector,
link extractor, URL resolver and downloader.

Conventions of the embedding:

* a Go `string` is the list of its bytes, each byte written as a `Char`
  (`GoString`): the package compares, slices and measures strings byte by
  byte, and `len` is `List.length`;
* a Go `[]byte` is a `List Byte` with `Byte = Fin 256`;
* a Go `int` is an `Int`;
* a Go `error` is an `Option GoString`: `none` is the `nil` error and
  `some msg` an error whose `Error()` text is `msg`;
* a run-time panic (nil pointer dereference) is the `Except.error` branch of
  `Except Panic`;
* library routines (`sort.Sort`, `filetype.Match`, the HTML tokenizer, the
  fetcher) are parameters; `net/url`, `encoding/base64` and `strings` are
  modelled after the Go standard library.
-/

set_option maxRecDepth 100000

namespace pageicon

/-! ## Data model -/

deriving instance DecidableEq for Except

/-- A Go string, as the sequence of its bytes; a byte is written as a `Char`, called
a unit below. -/
abbrev GoString := List Char

/-- One byte. -/
abbrev Byte := Fin 256

/-- The `Icon` struct of `pageicon.go`; `Data` holds the bytes the reader yields. -/
structure Icon where
  Source : GoString
  Data : List Byte
  Size : Int
  Mime : GoString
  Ext : GoString
deriving DecidableEq, Repr

/-! ## Selector (`sort.go`, `findBestIcon`) -/

/-- The method `bySize.Less`: the icon `a` goes before `b` when it is strictly larger. -/
def bySize.Less (a b : Icon) : Bool := decide (a.Size > b.Size)

/-- The contract of `sort.Sort` for the `bySize` ordering: the outcome is a
rearrangement of the input in which no later element is `Less` than an earlier one. -/
structure SortContract (sortSort : List Icon → List Icon) : Prop where
  perm : ∀ l, (sortSort l).Perm l
  sorted : ∀ l, (sortSort l).Pairwise (fun a b => bySize.Less b a = false)

/-- Insertion of one icon in front of the first element it is not smaller than. -/
def insertBySize (x : Icon) : List Icon → List Icon
  | [] => [x]
  | y :: ys => if bySize.Less y x then y :: insertBySize x ys else x :: y :: ys

/-- Insertion sort under `bySize.Less`, the routine `sort.Sort` runs on short slices. -/
def insertionSort : List Icon → List Icon
  | [] => []
  | x :: xs => insertBySize x (insertionSort xs)

/-- The two nested `for ... range` loops of `findBestIcon`: the first preference, in
order, for which the sorted icons hold a match, and the first such icon. -/
def firstPreferred (icons : List Icon) (ext : List GoString) : Option Icon :=
  ext.findSome? (fun pref => icons.find? (fun icon => decide (icon.Ext = pref)))

/-- The function `findBestIcon`; `none` is the `nil` result. -/
def findBestIcon (sortSort : List Icon → List Icon) (icons : List Icon)
    (ext : List GoString) : Option Icon :=
  if icons.length = 0 then none
  else
    let icons := sortSort icons
    if icons.length = 1 then icons.head?
    else if ext.length = 0 then icons.head?
    else
      match firstPreferred icons ext with
      | some icon => some icon
      | none => icons.head?

/-- The test fixture of C1: preference `png` over jpg:500, png:1, jpg:999. -/
def fixtureIcons : List Icon :=
  [⟨[], [], 500, [], "jpg".toList⟩, ⟨[], [], 1, [], "png".toList⟩, ⟨[], [], 999, [], "jpg".toList⟩]

/-! ## The `strings` routines the package calls -/

/-- `strings.HasPrefix`. -/
def strings.HasPrefix (s pre : GoString) : Bool := pre.isPrefixOf s

/-- `strings.HasSuffix`. -/
def strings.HasSuffix (s suf : GoString) : Bool := suf.isSuffixOf s

/-- The position of the first occurrence of `sub` in `s`, if there is one. -/
def strings.firstIndex : GoString → GoString → Option Nat
  | [], sub => if sub.isEmpty then some 0 else none
  | c :: s, sub =>
    if sub.isPrefixOf (c :: s) then some 0
    else
      match strings.firstIndex s sub with
      | some i => some (i + 1)
      | none => none

/-- `strings.Index`: the position of the first occurrence of `sub` in `s`, or `-1`. -/
def strings.Index (s sub : GoString) : Int :=
  match strings.firstIndex s sub with
  | some i => (i : Int)
  | none => -1

/-- `strings.Contains`, which is `Index(s, sub) >= 0`. -/
def strings.Contains (s sub : GoString) : Bool := decide (strings.Index s sub ≥ 0)

/-! ## Logging helper (`truncate`) and the failure message of `downloadIcons` -/

/-- The function `truncate`: strings of fewer than 100 units pass unchanged, longer
ones are cut to their first 100 units followed by three dots. -/
def truncate (str : GoString) : GoString :=
  if str.length < 100 then str else str.take 100 ++ "...".toList

/-- The text `fmt.Sprintf("download failed for %d: %s: %s", ii, l, truncate(err))`
that a failing worker of `downloadIcons` sends on the `failed` channel. -/
def failureMessage (ii : Nat) (l : GoString) (err : GoString) : GoString :=
  "download failed for ".toList ++ (Nat.repr ii).toList ++ ": ".toList ++ l ++ ": ".toList
    ++ truncate err

/-! ## HTML link extractor (`html.go`) -/

/-- The token kinds of `golang.org/x/net/html`. -/
inductive TokenType where
  | ErrorToken | TextToken | StartTagToken | EndTagToken
  | SelfClosingTagToken | CommentToken | DoctypeToken
deriving DecidableEq, Repr

/-- One attribute of a tag, `html.Attribute`. -/
structure Attribute where
  Key : GoString
  Val : GoString
deriving DecidableEq, Repr

/-- One token, `html.Token`: its kind, its tag name or text, its attributes in order. -/
structure Token where
  Typ : TokenType
  Data : GoString
  Attr : List Attribute
deriving DecidableEq, Repr

/-- The error a tokenizer holds once its input is used up: `io.EOF`, or a lexing error. -/
inductive TokenizerErr where
  | EOF
  | failure (msg : GoString)
deriving DecidableEq, Repr

/-- The state of `html.Tokenizer` as `parseLinks` sees it: the tokens `Next` has still
to return, and the error it reports with the `ErrorToken` that follows them. -/
structure Tokenizer where
  pending : List Token
  err : TokenizerErr
deriving DecidableEq, Repr

/-- The method `token.Attr`: the value of the first attribute with the given key. -/
def Token.lookup (t : Token) (name : GoString) : Option GoString :=
  (t.Attr.find? (fun a => decide (a.Key = name))).map (fun a => a.Val)

/-- The function `iconFromLink`; `none` is the `("", false)` result. -/
def iconFromLink (t : Token) : Option GoString :=
  let viaHref : Option GoString :=
    match t.lookup "href".toList with
    | some href =>
      if strings.Contains href "icon.".toList then
        let isPng := strings.HasSuffix href ".png".toList
        let isJpg := strings.HasSuffix href ".jpg".toList
        if isPng || isJpg then some href else none
      else none
    | none => none
  match viaHref with
  | some href => some href
  | none =>
    match t.lookup "rel".toList with
    | some rel =>
      if strings.Contains rel "apple-touch".toList || strings.Contains rel "icon".toList then
        match t.lookup "href".toList with
        | some href => some href
        | none => none
      else none
    | none => none

/-- The function `iconFromMeta`; `none` is the `("", false)` result. -/
def iconFromMeta (t : Token) : Option GoString :=
  match t.lookup "property".toList with
  | none => none
  | some property =>
    if property ≠ "og:image".toList then none
    else
      match t.lookup "content".toList with
      | some graphImageURL => some graphImageURL
      | none => none

/-- The inner `switch t.Data` of `parseLinks`: the links after one start or
self-closing tag has been looked at. -/
def appendTag (links : List GoString) (t : Token) : List GoString :=
  if t.Data = "link".toList then
    match iconFromLink t with
    | some link => links ++ [link]
    | none => links
  else if t.Data = "meta".toList then
    match iconFromMeta t with
    | some link => links ++ [link]
    | none => links
  else links

/-- What `parseLinks` does when `z.Next()` yields an `ErrorToken`: `z.Err()` is then
the tokenizer's error; a lexing error is returned as `(nil, err)`, and `io.EOF`
leaves the loop with the links found so far. -/
def parseEnd (err : TokenizerErr) (links : List GoString) : Except GoString (List GoString) :=
  match err with
  | .EOF => .ok links
  | .failure msg => .error msg

/-- The `for` loop of `parseLinks` over the tokens `z.Next()` yields; once the pending
tokens are used up `Next` yields an `ErrorToken`. `z.Err()` is non-nil only together
with an `ErrorToken`. -/
def parseLoop (err : TokenizerErr) : List Token → List GoString → Except GoString (List GoString)
  | [], links => parseEnd err links
  | t :: rest, links =>
    if t.Typ = .ErrorToken then parseEnd err links
    else if t.Typ = .StartTagToken ∨ t.Typ = .SelfClosingTagToken then
      parseLoop err rest (appendTag links t)
    else parseLoop err rest links

/-- The function `parseLinks`, on the tokenizer made from the reader. -/
def parseLinks (z : Tokenizer) : Except GoString (List GoString) :=
  parseLoop z.err z.pending []

/-- What section 4.2 of the specification says one token emits (a reference definition
written from the specification, to compare `parseLinks` with). -/
def specEmit (t : Token) : Option GoString :=
  if t.Typ = .StartTagToken ∨ t.Typ = .SelfClosingTagToken then
    if t.Data = "link".toList then
      match t.lookup "href".toList with
      | none => none
      | some href =>
        if strings.Contains href "icon.".toList = true ∧
            (strings.HasSuffix href ".png".toList = true ∨
              strings.HasSuffix href ".jpg".toList = true) then some href
        else
          match t.lookup "rel".toList with
          | none => none
          | some rel =>
            if strings.Contains rel "apple-touch".toList = true ∨
                strings.Contains rel "icon".toList = true then some href
            else none
    else if t.Data = "meta".toList then
      if t.lookup "property".toList = some "og:image".toList then t.lookup "content".toList
      else none
    else none
  else none

/-! ## `encoding/base64`, standard encoding with padding -/

/-- The alphabet of `base64.StdEncoding`. -/
def base64.encodeStd : GoString :=
  "ABCDEFGHIJKLMNOPQRSTUVWXYZabcdefghijklmnopqrstuvwxyz0123456789+/".toList

/-- The table lookup `enc.encode[v]`. -/
def base64.encodeChar (v : Nat) : Char := base64.encodeStd.getD v 'A'

/-- The table lookup `enc.decodeMap[c]`; `none` stands for the entry `0xff`. -/
def base64.decodeMap (c : Char) : Option Nat :=
  let i := base64.encodeStd.indexOf c
  if i < 64 then some i else none

/-- The conversion `byte(v)` of an unsigned integer. -/
def toByte (v : Nat) : Byte := ⟨v % 256, Nat.mod_lt _ (by decide)⟩

/-- The method `Encoding.Encode` of the standard encoding: three bytes become four
letters, a last group of one or two bytes is padded with `=`. -/
def base64.EncodeToString : List Byte → GoString
  | a :: b :: c :: rest =>
    let val := a.val <<< 16 ||| b.val <<< 8 ||| c.val
    base64.encodeChar (val >>> 18 &&& 0x3F) :: base64.encodeChar (val >>> 12 &&& 0x3F) ::
      base64.encodeChar (val >>> 6 &&& 0x3F) :: base64.encodeChar (val &&& 0x3F) ::
      base64.EncodeToString rest
  | [a, b] =>
    let val := a.val <<< 16 ||| b.val <<< 8
    [base64.encodeChar (val >>> 18 &&& 0x3F), base64.encodeChar (val >>> 12 &&& 0x3F),
      base64.encodeChar (val >>> 6 &&& 0x3F), '=']
  | [a] =>
    let val := a.val <<< 16
    [base64.encodeChar (val >>> 18 &&& 0x3F), base64.encodeChar (val >>> 12 &&& 0x3F), '=', '=']
  | [] => []

/-- The error text of `base64.CorruptInputError` (the byte offset is left out). -/
def base64.CorruptInputError : GoString := "illegal base64 data".toList

/-- The error text of `io.ErrUnexpectedEOF`. -/
def io.ErrUnexpectedEOF : GoString := "unexpected EOF".toList

/-- The decoding of `Encoding.decodeQuantum`, quantum after quantum, on input from
which line breaks are already removed: four letters give three bytes; `=` may close
the last quantum after two or three letters and must end the input; any other unit
is corrupt input; input that stops inside a quantum is an error. -/
def base64.decodeQuanta : GoString → Except GoString (List Byte)
  | [] => .ok []
  | [_] => .error io.ErrUnexpectedEOF
  | [_, _] => .error io.ErrUnexpectedEOF
  | [_, _, _] => .error io.ErrUnexpectedEOF
  | c0 :: c1 :: c2 :: c3 :: rest =>
    match base64.decodeMap c0, base64.decodeMap c1 with
    | some v0, some v1 =>
      match base64.decodeMap c2 with
      | some v2 =>
        match base64.decodeMap c3 with
        | some v3 =>
          let val := v0 <<< 18 ||| v1 <<< 12 ||| v2 <<< 6 ||| v3
          match base64.decodeQuanta rest with
          | .ok tail => .ok (toByte (val >>> 16) :: toByte (val >>> 8) :: toByte val :: tail)
          | .error e => .error e
        | none =>
          if c3 = '=' then
            if rest = [] then
              let val := v0 <<< 18 ||| v1 <<< 12 ||| v2 <<< 6
              .ok [toByte (val >>> 16), toByte (val >>> 8)]
            else .error base64.CorruptInputError
          else .error base64.CorruptInputError
      | none =>
        if c2 = '=' then
          if c3 = '=' then
            if rest = [] then
              let val := v0 <<< 18 ||| v1 <<< 12
              .ok [toByte (val >>> 16)]
            else .error base64.CorruptInputError
          else .error base64.CorruptInputError
        else .error base64.CorruptInputError
    | _, _ => .error base64.CorruptInputError

/-- Reading `base64.NewDecoder(base64.StdEncoding, r)` to its end with
`ioutil.ReadAll`: line feeds and carriage returns are dropped, the rest is decoded;
data read before an error is discarded by the caller, so an error carries none. -/
def base64.readAllDecoder (src : GoString) : Except GoString (List Byte) :=
  base64.decodeQuanta (src.filter (fun c => c ≠ '\n' ∧ c ≠ '\r'))

/-! ## Icon downloader (`downloadIcon`, `downloadIcons`) -/

/-- The part of `types.Type` of the `filetype` library that the package reads:
`kind.MIME.Value` and `kind.Extension`. -/
structure Kind where
  MIME : GoString
  Extension : GoString
deriving DecidableEq, Repr

/-- The collaborators of the package: the global `fetcher` (a `Get` followed by
reading the reader to its end; either may fail), `filetype.Match`, `sort.Sort` on
`bySize`, and the HTML tokenizer `html.NewTokenizer` run over a document. -/
structure Env where
  fetcher : GoString → Except GoString (List Byte)
  filetypeMatch : List Byte → Except GoString Kind
  sortSort : List Icon → List Icon
  tokenize : List Byte → Tokenizer

/-- The function `isEmbedded`. -/
def isEmbedded (link : GoString) : Bool := strings.HasPrefix link "data:image/".toList

/-- The outcome of `downloadIcon`: its `(icon, err)` result, and the URLs it handed
to the fetcher, in order. -/
structure Download where
  result : Except GoString Icon
  fetched : List GoString

/-- The tail of `downloadIcon` shared by both branches: sniff the bytes in `buf` and
build the icon. -/
def sniffIcon (env : Env) (link : GoString) (buf : List Byte) : Except GoString Icon :=
  match env.filetypeMatch buf with
  | .error err => .error err
  | .ok kind =>
    .ok { Source := link, Size := (buf.length : Int), Data := buf,
          Mime := kind.MIME, Ext := kind.Extension }

/-- The function `downloadIcon`. The slice `link[Index(link, "base64,")+7:]` is
always in range for an embedded link (which has at least eleven units). -/
def downloadIcon (env : Env) (link : GoString) : Download :=
  if isEmbedded link then
    let base64Data := link.drop (strings.Index link "base64,".toList + 7).toNat
    match base64.readAllDecoder base64Data with
    | .error err => ⟨.error err, []⟩
    | .ok data => ⟨sniffIcon env link data, []⟩
  else
    match env.fetcher link with
    | .error err => ⟨.error err, [link]⟩
    | .ok data => ⟨sniffIcon env link data, [link]⟩

/-- What the two collecting goroutines of `downloadIcons` hold: the slice the
`collectIcons` goroutine appends to, and the messages the `logMessages` goroutine
has passed to `infofln`. -/
structure Collected where
  icons : List Icon
  log : List GoString
deriving DecidableEq

/-- One worker goroutine of `downloadIcons`, from its start to its send: it downloads
its link and hands either the icon to `collectIcons` or the failure message to
`logMessages`. -/
def deliver (env : Env) (w : Nat × GoString) (c : Collected) : Collected :=
  match (downloadIcon env w.2).result with
  | .error err => { c with log := c.log ++ [failureMessage w.1 w.2 err] }
  | .ok icon => { c with icons := c.icons ++ [icon] }

/-- The run of the worker goroutines. Both channels are unbuffered, so every send is
a hand-over to the one receiver and the receivers see the sends one at a time; in
which order is up to the scheduler. `sched` is the scheduler: its next entry picks,
among the workers that have not delivered yet, the one that delivers next (the first
one when `sched` is used up). `fuel` counts the workers. -/
def runWorkers (env : Env) : Nat → List Nat → List (Nat × GoString) → Collected → Collected
  | 0, _, _, c => c
  | fuel + 1, sched, pending, c =>
    match pending with
    | [] => c
    | p :: ps =>
      let k := sched.headD 0 % (ps.length + 1)
      let w := (p :: ps).getD k p
      runWorkers env fuel sched.tail ((p :: ps).eraseIdx k) (deliver env w c)

/-- The function `downloadIcons`: one worker per link, indexed as `range links`
does; after `downloading.Wait()` the channels are closed and the collected icons
are returned with a `nil` error. The log is returned beside the result. -/
def downloadIcons (env : Env) (sched : List Nat) (links : List GoString) :
    (List Icon × Option GoString) × List GoString :=
  let c := runWorkers env links.length sched links.enum ⟨[], []⟩
  ((c.icons, none), c.log)

/-- A start tag with the given name and attributes. -/
def startTag (name : String) (attrs : List (String × String)) : Token :=
  ⟨.StartTagToken, name.toList, attrs.map (fun a => ⟨a.1.toList, a.2.toList⟩)⟩

/-- The tokens of the document of `TestGetIconLinks` (the text between tags is white
space and shown once). -/
def fixtureTokens : List Token :=
  [ ⟨.TextToken, "\n".toList, []⟩,
    startTag "html" [], startTag "head" [],
    startTag "link" [("href", "/icon.png")],
    startTag "link" [("href", "/icon.jpg")],
    startTag "link" [("rel", "icon"), ("href", "/any.ico")],
    startTag "link" [("rel", "apple-touch"), ("href", "data:image/png;base64,embeddedimage")],
    startTag "meta" [("property", "og:image"), ("content", "/this/is/an/icon.jpg")],
    startTag "meta" [("property", "og:image"), ("content", "/this/is/an/icon-2.jpg")],
    startTag "meta" [("property", "og:image"), ("content", "/images/fb_icon_325x325.png")],
    startTag "link" [("href", "/icon.mp4")],
    ⟨.EndTagToken, "head".toList, []⟩, ⟨.EndTagToken, "html".toList, []⟩ ]

/-- The first bytes of every PNG file. -/
def pngMagic : List Byte := [0x89, 0x50, 0x4E, 0x47, 0x0D, 0x0A, 0x1A, 0x0A]

/-- A sniffer in the manner of `filetype.Match`: an empty buffer is an error, a buffer
that starts with the PNG signature is a PNG, anything else is of unknown kind. -/
def fixtureMatch (buf : List Byte) : Except GoString Kind :=
  if buf = [] then .error "Empty buffer".toList
  else if pngMagic.isPrefixOf buf then .ok ⟨"image/png".toList, "png".toList⟩
  else .ok ⟨[], "unknown".toList⟩

/-- The collaborators of the tests: a fetcher that answers every URL with the same
PNG bytes, the sniffer above, insertion sort, and a tokenizer that yields the tokens
of the test document. -/
def fixtureEnv : Env where
  fetcher := fun _ => .ok (pngMagic ++ [0, 0, 0, 13])
  filetypeMatch := fixtureMatch
  sortSort := insertionSort
  tokenize := fun _ => ⟨fixtureTokens, .EOF⟩

/-- The collaborators of the tests, with a fetcher that fails on every URL. -/
def offlineEnv : Env :=
  { fixtureEnv with fetcher := fun _ => .error "no such host".toList }

/-- A link of 120 units. -/
def longLink : GoString := "https://example.com/".toList ++ List.replicate 100 'a'

/-- The icon of a link when its download succeeds. -/
def downloadedIcon (env : Env) (l : GoString) : Option Icon :=
  match (downloadIcon env l).result with
  | .ok icon => some icon
  | .error _ => none

/-! ## `net/url`

The routines of the standard library package `net/url` that `resolve` runs: `Parse`,
`Hostname`, `ResolveReference` and `String`, with the helpers they call. A parse
error is `Except.error`; `url.Parse` then returns a `nil` URL. -/

/-- The encoding modes of `net/url`. -/
inductive url.encoding where
  | encodePath | encodePathSegment | encodeHost | encodeZone
  | encodeUserPassword | encodeQueryComponent | encodeFragment
deriving DecidableEq, Repr

/-- The user name and password part of a URL, `url.Userinfo`. -/
structure url.Userinfo where
  username : GoString
  password : GoString
  passwordSet : Bool
deriving DecidableEq, Repr

/-- The struct `url.URL`; `User = none` is the `nil` pointer. -/
structure url.URL where
  Scheme : GoString := []
  Opaque : GoString := []
  User : Option url.Userinfo := none
  Host : GoString := []
  Path : GoString := []
  RawPath : GoString := []
  OmitHost : Bool := false
  ForceQuery : Bool := false
  RawQuery : GoString := []
  Fragment : GoString := []
  RawFragment : GoString := []
deriving DecidableEq, Repr

/-- An ASCII letter or digit. -/
def url.isAlnum (c : Char) : Bool :=
  decide (('a' ≤ c ∧ c ≤ 'z') ∨ ('A' ≤ c ∧ c ≤ 'Z') ∨ ('0' ≤ c ∧ c ≤ '9'))

/-- The function `shouldEscape`: whether the unit `c` must be written as `%XX` in the
given part of a URL. -/
def url.shouldEscape (c : Char) (mode : url.encoding) : Bool :=
  if url.isAlnum c then false
  else if (mode = .encodeHost ∨ mode = .encodeZone) ∧
      c ∈ ['!', '$', '&', Char.ofNat 39, '(', ')', '*', '+', ',', ';', '=', ':', '[', ']',
        '<', '>', Char.ofNat 34] then false
  else if c ∈ ['-', '_', '.', '~'] then false
  else if c ∈ ['$', '&', '+', ',', '/', ':', ';', '=', '?', '@'] then
    match mode with
    | .encodePath => decide (c = '?')
    | .encodePathSegment => decide (c = '/' ∨ c = ';' ∨ c = ',' ∨ c = '?')
    | .encodeUserPassword => decide (c = '@' ∨ c = '/' ∨ c = '?' ∨ c = ':')
    | .encodeQueryComponent => true
    | .encodeFragment => false
    | _ => true
  else if mode = .encodeFragment ∧ c ∈ ['!', '(', ')', '*'] then false
  else true

/-- The function `ishex`. -/
def url.ishex (c : Char) : Bool :=
  decide (('0' ≤ c ∧ c ≤ '9') ∨ ('a' ≤ c ∧ c ≤ 'f') ∨ ('A' ≤ c ∧ c ≤ 'F'))

/-- The function `unhex`. -/
def url.unhex (c : Char) : Nat :=
  if '0' ≤ c ∧ c ≤ '9' then c.toNat - 48
  else if 'a' ≤ c ∧ c ≤ 'f' then c.toNat - 97 + 10
  else if 'A' ≤ c ∧ c ≤ 'F' then c.toNat - 65 + 10
  else 0

/-- The error text of `url.EscapeError` (without the quotes around the escape). -/
def url.EscapeError (s : GoString) : GoString := "invalid URL escape ".toList ++ s

/-- The error text of `url.InvalidHostError` (without the quotes around the unit). -/
def url.InvalidHostError (s : GoString) : GoString :=
  "invalid character ".toList ++ s ++ " in host name".toList

/-- The function `unescape`: every `%XX` must be well formed (and, in a host, may
only stand for a unit of 0x80 and above, or be `%25`); a host may hold no unit that
would need escaping; `+` is a space in a query component. The checks and the
rewriting, two loops in the library, are done in one pass here. -/
def url.unescape (mode : url.encoding) : GoString → Except GoString GoString
  | [] => .ok []
  | c :: rest =>
    if c = '%' then
      match rest with
      | h1 :: h2 :: rest2 =>
        if url.ishex h1 && url.ishex h2 then
          if mode = .encodeHost ∧ url.unhex h1 < 8 ∧ ¬ (h1 = '2' ∧ h2 = '5') then
            .error (url.EscapeError [c, h1, h2])
          else if mode = .encodeZone ∧ ¬ (h1 = '2' ∧ h2 = '5') ∧
              Char.ofNat (url.unhex h1 * 16 + url.unhex h2) ≠ ' ' ∧
              url.shouldEscape (Char.ofNat (url.unhex h1 * 16 + url.unhex h2)) .encodeHost
                = true then
            .error (url.EscapeError [c, h1, h2])
          else
            match url.unescape mode rest2 with
            | .ok t => .ok (Char.ofNat (url.unhex h1 * 16 + url.unhex h2) :: t)
            | .error e => .error e
        else .error (url.EscapeError (c :: rest.take 2))
      | _ => .error (url.EscapeError (c :: rest.take 2))
    else if c = '+' then
      match url.unescape mode rest with
      | .ok t => .ok ((if mode = .encodeQueryComponent then ' ' else '+') :: t)
      | .error e => .error e
    else if (mode = .encodeHost ∨ mode = .encodeZone) ∧ c.toNat < 0x80 ∧
        url.shouldEscape c .encodeHost = true then
      .error (url.InvalidHostError [c])
    else
      match url.unescape mode rest with
      | .ok t => .ok (c :: t)
      | .error e => .error e

/-- The digit `"0123456789ABCDEF"[v]`. -/
def url.upperhex (v : Nat) : Char := "0123456789ABCDEF".toList.getD v '0'

/-- The function `escape`. -/
def url.escape (mode : url.encoding) : GoString → GoString
  | [] => []
  | c :: rest =>
    if url.shouldEscape c mode then
      if c = ' ' ∧ mode = .encodeQueryComponent then '+' :: url.escape mode rest
      else '%' :: url.upperhex (c.toNat / 16 % 16) :: url.upperhex (c.toNat % 16)
        :: url.escape mode rest
    else c :: url.escape mode rest

/-- The function `validEncoded`. -/
def url.validEncoded (mode : url.encoding) (s : GoString) : Bool :=
  s.all (fun c =>
    if c ∈ ['!', '$', '&', Char.ofNat 39, '(', ')', '*', '+', ',', ';', '=', ':', '@',
        '[', ']', '%'] then true
    else !url.shouldEscape c mode)

/-- The function `strings.Cut` for a separator of one unit: what is before and after
its first occurrence, and whether it occurs; without it, all of `s` and nothing. -/
def strings.Cut (sep : Char) : GoString → GoString × GoString × Bool
  | [] => ([], [], false)
  | c :: s =>
    if c = sep then ([], s, true)
    else
      match strings.Cut sep s with
      | (before, after, found) => (c :: before, after, found)

/-- The split at the last occurrence of a unit, as `strings.LastIndex` with the two
slices around it gives: what is before and after it, or `none` when it is absent. -/
def strings.cutLast (sep : Char) (s : GoString) : Option (GoString × GoString) :=
  match strings.Cut sep s.reverse with
  | (after, before, found) => if found then some (before.reverse, after.reverse) else none

/-- The function `stringContainsCTLByte`. -/
def url.stringContainsCTLByte (s : GoString) : Bool :=
  s.any (fun c => decide (c.toNat < 0x20 ∨ c.toNat = 0x7f))

/-- The loop of `getScheme` from position `i` on: `done` holds the units before `i`
in reverse. -/
def url.getSchemeLoop (rawURL : GoString) : GoString → GoString → Except GoString (GoString × GoString)
  | _, [] => .ok ([], rawURL)
  | done, c :: rest =>
    if ('a' ≤ c ∧ c ≤ 'z') ∨ ('A' ≤ c ∧ c ≤ 'Z') then url.getSchemeLoop rawURL (c :: done) rest
    else if ('0' ≤ c ∧ c ≤ '9') ∨ c = '+' ∨ c = '-' ∨ c = '.' then
      if done = [] then .ok ([], rawURL) else url.getSchemeLoop rawURL (c :: done) rest
    else if c = ':' then
      if done = [] then .error "missing protocol scheme".toList else .ok (done.reverse, rest)
    else .ok ([], rawURL)

/-- The function `getScheme`: the scheme before the first colon and what follows it,
or no scheme and the whole text. -/
def url.getScheme (rawURL : GoString) : Except GoString (GoString × GoString) :=
  url.getSchemeLoop rawURL [] rawURL

/-- The function `validOptionalPort`: empty, or a colon followed by digits only. -/
def url.validOptionalPort (port : GoString) : Bool :=
  match port with
  | [] => true
  | c :: digits => decide (c = ':') && digits.all (fun b => decide ('0' ≤ b ∧ b ≤ '9'))

/-- The function `validUserinfo`. -/
def url.validUserinfo (s : GoString) : Bool :=
  s.all (fun r => url.isAlnum r ||
    decide (r ∈ ['-', '.', '_', ':', '~', '!', '$', '&', Char.ofNat 39, '(', ')', '*', '+',
      ',', ';', '=', '%', '@']))

/-- The function `parseHost`. -/
def url.parseHost (host : GoString) : Except GoString GoString :=
  if strings.HasPrefix host ['['] then
    match strings.cutLast ']' host with
    | none => .error "missing ']' in host".toList
    | some (inner, colonPort) =>
      if !url.validOptionalPort colonPort then .error "invalid port after host".toList
      else
        let zone := strings.Index inner "%25".toList
        if zone ≥ 0 then
          match url.unescape .encodeHost (inner.take zone.toNat) with
          | .error e => .error e
          | .ok host1 =>
            match url.unescape .encodeZone (inner.drop zone.toNat) with
            | .error e => .error e
            | .ok host2 =>
              match url.unescape .encodeHost (']' :: colonPort) with
              | .error e => .error e
              | .ok host3 => .ok (host1 ++ host2 ++ host3)
        else url.unescape .encodeHost host
  else
    match strings.cutLast ':' host with
    | some (_, port) =>
      if !url.validOptionalPort (':' :: port) then .error "invalid port after host".toList
      else url.unescape .encodeHost host
    | none => url.unescape .encodeHost host

/-- The function `parseAuthority`: the user information before the last `@`, if any,
and the host after it. -/
def url.parseAuthority (authority : GoString) : Except GoString (Option url.Userinfo × GoString) :=
  match strings.cutLast '@' authority with
  | none =>
    match url.parseHost authority with
    | .error e => .error e
    | .ok host => .ok (none, host)
  | some (userinfo, hostPart) =>
    match url.parseHost hostPart with
    | .error e => .error e
    | .ok host =>
      if !url.validUserinfo userinfo then .error "net/url: invalid userinfo".toList
      else if !strings.Contains userinfo [':'] then
        match url.unescape .encodeUserPassword userinfo with
        | .error e => .error e
        | .ok username => .ok (some ⟨username, [], false⟩, host)
      else
        let r := strings.Cut ':' userinfo
        match url.unescape .encodeUserPassword r.1 with
        | .error e => .error e
        | .ok username =>
          match url.unescape .encodeUserPassword r.2.1 with
          | .error e => .error e
          | .ok password => .ok (some ⟨username, password, true⟩, host)

/-- The method `setPath`: `Path` is the decoded form; `RawPath` is kept only when
the default encoding of `Path` differs from the text given. -/
def url.URL.setPath (u : url.URL) (p : GoString) : Except GoString url.URL :=
  match url.unescape .encodePath p with
  | .error e => .error e
  | .ok path =>
    if p = url.escape .encodePath path then .ok { u with Path := path, RawPath := [] }
    else .ok { u with Path := path, RawPath := p }

/-- The method `setFragment`. -/
def url.URL.setFragment (u : url.URL) (f : GoString) : Except GoString url.URL :=
  match url.unescape .encodeFragment f with
  | .error e => .error e
  | .ok frag =>
    if f = url.escape .encodeFragment frag then .ok { u with Fragment := frag, RawFragment := [] }
    else .ok { u with Fragment := frag, RawFragment := f }

/-- The rest of `parse` once scheme and query are split off: the authority after a
leading `//`, then the path. -/
def url.parseTail (u : url.URL) (rest : GoString) : Except GoString url.URL :=
  if (u.Scheme ≠ [] ∨ ¬ strings.HasPrefix rest "///".toList = true) ∧
      strings.HasPrefix rest "//".toList = true then
    let r := strings.Cut '/' (rest.drop 2)
    let authority := r.1
    let rest2 : GoString := if r.2.2 then '/' :: r.2.1 else []
    match url.parseAuthority authority with
    | .error e => .error e
    | .ok (user, host) => url.URL.setPath { u with User := user, Host := host } rest2
  else if u.Scheme ≠ [] ∧ strings.HasPrefix rest "/".toList = true then
    url.URL.setPath { u with OmitHost := true } rest
  else url.URL.setPath u rest

/-- The function `parse(rawURL, false)`: a URL without its fragment. -/
def url.parse (rawURL : GoString) : Except GoString url.URL :=
  if url.stringContainsCTLByte rawURL then
    .error "net/url: invalid control character in URL".toList
  else if rawURL = ['*'] then .ok { Path := ['*'] }
  else
    match url.getScheme rawURL with
    | .error e => .error e
    | .ok (scheme, rest) =>
      let scheme := scheme.map Char.toLower
      let forceQuery : Bool := strings.HasSuffix rest ['?'] && decide (rest.count '?' = 1)
      let rest2 : GoString := if forceQuery then rest.dropLast else (strings.Cut '?' rest).1
      let rawQuery : GoString := if forceQuery then [] else (strings.Cut '?' rest).2.1
      let u : url.URL := { Scheme := scheme, ForceQuery := forceQuery, RawQuery := rawQuery }
      if !strings.HasPrefix rest2 ['/'] then
        if scheme ≠ [] then .ok { u with Opaque := rest2 }
        else if strings.Contains (strings.Cut '/' rest2).1 [':'] then
          .error "first path segment in URL cannot contain colon".toList
        else url.parseTail u rest2
      else url.parseTail u rest2

/-- The function `url.Parse`: the fragment after the first `#` is split off and set
after the rest is parsed. The error is the inner one, without the `parse` wrapper
around its text. -/
def url.Parse (rawURL : GoString) : Except GoString url.URL :=
  let r := strings.Cut '#' rawURL
  match url.parse r.1 with
  | .error e => .error e
  | .ok u => if r.2.1 = [] then .ok u else url.URL.setFragment u r.2.1

/-- The function `splitHostPort`, first component: the host without a valid port and
without the square brackets of an IPv6 literal. -/
def url.splitHost (hostPort : GoString) : GoString :=
  let host : GoString :=
    match strings.cutLast ':' hostPort with
    | some (before, port) => if url.validOptionalPort (':' :: port) then before else hostPort
    | none => hostPort
  if strings.HasPrefix host ['['] && strings.HasSuffix host [']'] then (host.drop 1).dropLast
  else host

/-- The method `Hostname`. -/
def url.URL.Hostname (u : url.URL) : GoString := url.splitHost u.Host

/-- The method `EscapedPath`. -/
def url.URL.EscapedPath (u : url.URL) : GoString :=
  if u.RawPath ≠ [] ∧ url.validEncoded .encodePath u.RawPath = true ∧
      url.unescape .encodePath u.RawPath = .ok u.Path then u.RawPath
  else if u.Path = ['*'] then ['*']
  else url.escape .encodePath u.Path

/-- The method `EscapedFragment`. -/
def url.URL.EscapedFragment (u : url.URL) : GoString :=
  if u.RawFragment ≠ [] ∧ url.validEncoded .encodeFragment u.RawFragment = true ∧
      url.unescape .encodeFragment u.RawFragment = .ok u.Fragment then u.RawFragment
  else url.escape .encodeFragment u.Fragment

/-- The method `Userinfo.String`. -/
def url.Userinfo.String (ui : url.Userinfo) : GoString :=
  url.escape .encodeUserPassword ui.username ++
    (if ui.passwordSet then ':' :: url.escape .encodeUserPassword ui.password else [])

/-- The part of `URL.String` written before the path when `Opaque` is empty: the
scheme with its colon, then `//`, the user information and the host. -/
def url.URL.authorityString (u : url.URL) : GoString :=
  (if u.Scheme ≠ [] then u.Scheme ++ [':'] else []) ++
  (if u.Scheme ≠ [] ∨ u.Host ≠ [] ∨ u.User ≠ none then
    if u.OmitHost = true ∧ u.Host = [] ∧ u.User = none then []
    else
      (if u.Host ≠ [] ∨ u.Path ≠ [] ∨ u.User ≠ none then "//".toList else []) ++
      (match u.User with
        | some ui => url.Userinfo.String ui ++ ['@']
        | none => []) ++
      (if u.Host ≠ [] then url.escape .encodeHost u.Host else [])
  else [])

/-- The method `URL.String`. -/
def url.URL.String (u : url.URL) : GoString :=
  (if u.Opaque ≠ [] then
    (if u.Scheme ≠ [] then u.Scheme ++ [':'] else []) ++ u.Opaque
  else
    let path := url.URL.EscapedPath u
    let buf := url.URL.authorityString u ++
      (if path ≠ [] ∧ path.head? ≠ some '/' ∧ u.Host ≠ [] then ['/'] else [])
    buf ++
    (if buf = [] ∧ strings.Contains (strings.Cut '/' path).1 [':'] = true then "./".toList
      else []) ++ path) ++
  (if u.ForceQuery = true ∨ u.RawQuery ≠ [] then '?' :: u.RawQuery else []) ++
  (if u.Fragment ≠ [] then '#' :: url.URL.EscapedFragment u else [])

/-- The function `strings.Split` for a separator of one unit; `resolvePath` walks
over these elements with repeated `strings.Cut`. -/
def strings.Split (sep : Char) : GoString → List GoString
  | [] => [[]]
  | c :: s =>
    if c = sep then [] :: strings.Split sep s
    else
      match strings.Split sep s with
      | seg :: segs => (c :: seg) :: segs
      | [] => [[c]]

/-- One round of the loop of `resolvePath` for the element `elem`; the state is the
builder `dst` and the flag `first`. -/
def url.resolveStep (st : GoString × Bool) (elem : GoString) : GoString × Bool :=
  if elem = ['.'] then (st.1, false)
  else if elem = "..".toList then
    match strings.cutLast '/' (st.1.drop 1) with
    | none => (['/'], true)
    | some (before, _) => ('/' :: before, st.2)
  else ((if st.2 then st.1 else st.1 ++ ['/']) ++ elem, false)

/-- The function `resolvePath`: `ref` joined to `base`, without `.` and `..` elements. -/
def url.resolvePath (base ref : GoString) : GoString :=
  let full : GoString :=
    if ref = [] then base
    else if ref.head? ≠ some '/' then
      (match strings.cutLast '/' base with
        | some (before, _) => before ++ ['/']
        | none => []) ++ ref
    else ref
  if full = [] then []
  else
    let elems := strings.Split '/' full
    let st := elems.foldl url.resolveStep (['/'], true)
    let dst : GoString :=
      if elems.getLast? = some ['.'] ∨ elems.getLast? = some "..".toList then st.1 ++ ['/']
      else st.1
    if dst.length > 1 ∧ (dst.drop 1).head? = some '/' then dst.drop 1 else dst

/-- The method `setPath` where `ResolveReference` calls it and ignores its error: on
an error the URL is left as it was. -/
def url.URL.setPathIgnoringError (u : url.URL) (p : GoString) : url.URL :=
  match url.URL.setPath u p with
  | .ok v => v
  | .error _ => u

/-- The method `ResolveReference`. -/
def url.URL.ResolveReference (u ref : url.URL) : url.URL :=
  let r : url.URL := if ref.Scheme = [] then { ref with Scheme := u.Scheme } else ref
  if ref.Scheme ≠ [] ∨ ref.Host ≠ [] ∨ ref.User ≠ none then
    url.URL.setPathIgnoringError r (url.resolvePath (url.URL.EscapedPath ref) [])
  else if ref.Opaque ≠ [] then { r with User := none, Host := [], Path := [] }
  else
    let r2 : url.URL :=
      if ref.Path = [] ∧ ref.ForceQuery = false ∧ ref.RawQuery = [] then
        if ref.Fragment = [] then
          { r with RawQuery := u.RawQuery, Fragment := u.Fragment, RawFragment := u.RawFragment }
        else { r with RawQuery := u.RawQuery }
      else r
    if ref.Path = [] ∧ u.Opaque ≠ [] then
      { r2 with Opaque := u.Opaque, User := none, Host := [], Path := [] }
    else
      url.URL.setPathIgnoringError { r2 with Host := u.Host, User := u.User }
        (url.resolvePath (url.URL.EscapedPath u) (url.URL.EscapedPath ref))

/-! ## URL resolver (`resolve`) and the orchestrator -/

/-- A run-time panic. -/
inductive Panic where
  | nilDereference
deriving DecidableEq, Repr

/-- The `nil`-or-URL result of `u, _ := url.Parse(s)`, the error being dropped. -/
def parseOrNil (s : GoString) : Option url.URL :=
  match url.Parse s with
  | .ok u => some u
  | .error _ => none

/-- The function `resolve`. Each of the three `url.Parse` results is used without a
look at its error; a `nil` result is dereferenced by `Hostname`, by the read of `Path`
or by `ResolveReference`, which panics. -/
def resolve (root path : GoString) : Except Panic GoString :=
  if root = [] then .ok []
  else if path = [] then .ok []
  else if strings.HasPrefix path "http".toList then .ok path
  else
    let root := if !strings.HasPrefix root "http".toList then "https://".toList ++ root else root
    let rootURL := parseOrNil root
    let path := if !strings.HasPrefix path "/".toList then "/".toList ++ path else path
    let pathURL := parseOrNil path
    match rootURL with
    | none => .error .nilDereference
    | some rootURL =>
      match pathURL with
      | none => .error .nilDereference
      | some pathURL =>
        let u := "https://".toList ++ url.URL.Hostname rootURL ++ pathURL.Path
        match parseOrNil u with
        | none => .error .nilDereference
        | some clean => .ok (url.URL.String (url.URL.ResolveReference rootURL clean))

/-- The function `errors.Wrap` of `github.com/pkg/errors`: a `nil` error stays `nil`,
any other error gets the message in front of its text. -/
def errors.Wrap (err : Option GoString) (message : GoString) : Option GoString :=
  match err with
  | none => none
  | some e => some (message ++ ": ".toList ++ e)

/-- The function `errors.New`. -/
def errors.New (message : GoString) : Option GoString := some message

/-- The loop `for ii, l := range links` of `getIconLinks` over the positions still to
visit: an embedded link is skipped, any other is overwritten in place with its
resolution. -/
def resolveLinks (rootURL : GoString) : List Nat → List GoString → Except Panic (List GoString)
  | [], links => .ok links
  | ii :: rest, links =>
    let l := links.getD ii []
    if isEmbedded l then resolveLinks rootURL rest links
    else
      match resolve rootURL l with
      | .error p => .error p
      | .ok r => resolveLinks rootURL rest (links.set ii r)

/-- The function `getIconLinks`, on the tokenizer of the document; the result is the
pair `(links, err)`, unless the function panics. -/
def getIconLinks (rootURL : GoString) (doc : Tokenizer) :
    Except Panic (List GoString × Option GoString) :=
  match parseLinks doc with
  | .error err => .ok ([], errors.Wrap (some err) "parsing document".toList)
  | .ok links =>
    match resolveLinks rootURL (List.range links.length) links with
    | .error p => .error p
    | .ok resolved => .ok (resolved, none)

/-- The function `Infer`; the result is the pair `(icon, err)`, unless the function
panics. The lines it logs are not part of the result. `sched` schedules the workers
of `downloadIcons`. -/
def Infer (env : Env) (sched : List Nat) (url : GoString) (preference : List GoString) :
    Except Panic (Option Icon × Option GoString) :=
  match env.fetcher url with
  | .error err => .ok (none, errors.Wrap (some err) "fetching url".toList)
  | .ok r =>
    match getIconLinks url (env.tokenize r) with
    | .error p => .error p
    | .ok (links, err) =>
      if err ≠ none then .ok (none, errors.Wrap err "getting icon links".toList)
      else if links.length < 1 then .ok (none, errors.Wrap err "no links found".toList)
      else
        let d := (downloadIcons env sched links).1
        if d.2 ≠ none then .ok (none, errors.Wrap d.2 "downloading icons".toList)
        else if d.1.length = 0 then .ok (none, errors.New "no valid icons".toList)
        else
          match findBestIcon env.sortSort d.1 preference with
          | none => .error .nilDereference
          | some icon => .ok (some icon, none)

/-- The function `List`. -/
def listLinks (env : Env) (url : GoString) : Except Panic (List GoString × Option GoString) :=
  match env.fetcher url with
  | .error err => .ok ([], some err)
  | .ok r => getIconLinks url (env.tokenize r)

/-- The collaborators of the tests, with a document that holds no icon link. -/
def noLinkEnv : Env :=
  { fixtureEnv with tokenize := fun _ => ⟨[startTag "html" [], startTag "head" []], .EOF⟩ }

/-- A document whose one icon link has a malformed percent escape. -/
def badEscapeTokens : List Token :=
  [startTag "html" [], startTag "link" [("rel", "icon"), ("href", "/icon%.png")]]

/-- What `getIconLinks` makes of one link: an embedded link stays, any other link is
resolved against the root. -/
def resolveOne (rootURL l : GoString) : Except Panic GoString :=
  if isEmbedded l then .ok l else resolve rootURL l

/-- The links of a list resolved one by one, front to back (a reference definition
to compare the in-place loop of `getIconLinks` with). -/
def resolveEach (rootURL : GoString) : List GoString → Except Panic (List GoString)
  | [] => .ok []
  | l :: ls =>
    match resolveOne rootURL l with
    | .error p => .error p
    | .ok r =>
      match resolveEach rootURL ls with
      | .error p => .error p
      | .ok rs => .ok (r :: rs)

/-! ## Reference rules of the resolver and the inputs they hold for -/

/-- A root with `https://` put in front when it does not start with `http`. -/
def withScheme (root : GoString) : GoString :=
  if !strings.HasPrefix root "http".toList then "https://".toList ++ root else root

/-- A path with `/` put in front when it does not start with `/`. -/
def withSlash (path : GoString) : GoString :=
  if !strings.HasPrefix path "/".toList then "/".toList ++ path else path

/-- The rules of section 4.3 of the specification, in order (a reference definition
written from the specification, to compare `resolve` with): the empty string if root
or path is empty; the path if it starts with `http`; otherwise `https://`, the hostname
of the root and the path component of the path, both as the URL parser gives them.
Where the parser rejects the root or the path the rules name no hostname or path, and
there is no result. -/
def referenceRules (root path : GoString) : Option GoString :=
  if root = [] ∨ path = [] then some []
  else if strings.HasPrefix path "http".toList then some path
  else
    match parseOrNil (withScheme root), parseOrNil (withSlash path) with
    | some rootURL, some pathURL =>
      some ("https://".toList ++ url.URL.Hostname rootURL ++ pathURL.Path)
    | _, _ => none

/-- A unit of a plain hostname: one the host encoding leaves as it is (a letter, a
digit, one of `-_.~!$&()*+,;=]<>`, the apostrophe or the double quote); the `:` before
a port and the `[` of an IPv6 literal are left aside. -/
def plainHostUnit (c : Char) : Bool :=
  !url.shouldEscape c .encodeHost && decide (c ≠ ':' ∧ c ≠ '[')

/-- A unit of a plain path: one that `URL.String` writes back as it is, which is a
letter, a digit, one of `-_.~$&+,/:;=@` (never escaped in a path), or one of `!*()[]`
and the apostrophe (kept as given). -/
def plainPathUnit (c : Char) : Bool :=
  !url.shouldEscape c .encodePath ||
    decide (c ∈ ['!', '*', Char.ofNat 39, '(', ')', '[', ']'])

/-- The raw path that `setPath` keeps for a path that decodes to itself: none when
the default encoding gives the path back, the path otherwise. -/
def rawPathOf (p : GoString) : GoString :=
  if p = url.escape .encodePath p then [] else p

/-- A path component that starts with `/`, holds only plain units, and has no `.` or
`..` element. -/
def plainPath (p : GoString) : Bool :=
  p.head? == some '/' && p.all plainPathUnit &&
    (strings.Split '/' p).all (fun e => decide (e ≠ ['.'] ∧ e ≠ "..".toList))

/-- The inputs on which nothing needs escaping or normalising: the parser accepts the
root and the path, the hostname of the root is plain and so is the path component of
the path. -/
def plainInput (root path : GoString) : Bool :=
  match parseOrNil (withScheme root), parseOrNil (withSlash path) with
  | some rootURL, some pathURL =>
    (url.URL.Hostname rootURL).all plainHostUnit && plainPath pathURL.Path
  | _, _ => false

/-- The elements of a path put together again, each after a `/`. -/
def joinSlash : List GoString → GoString
  | [] => []
  | e :: es => '/' :: e ++ joinSlash es

/-! # Theorems -/

/-! ## Selector: lemmas -/

theorem insertBySize_perm (x : Icon) (l : List Icon) : (insertBySize x l).Perm (x :: l) := by
  induction l with
  | nil => exact List.Perm.refl _
  | cons y ys ih =>
    unfold insertBySize
    split
    · exact ((List.Perm.cons y ih).trans (List.Perm.swap x y ys))
    · exact List.Perm.refl _

theorem insertionSort_perm (l : List Icon) : (insertionSort l).Perm l := by
  induction l with
  | nil => exact List.Perm.refl _
  | cons x xs ih => exact (insertBySize_perm x _).trans (List.Perm.cons x ih)

theorem insertBySize_sorted (x : Icon) (l : List Icon)
    (h : l.Pairwise (fun a b => bySize.Less b a = false)) :
    (insertBySize x l).Pairwise (fun a b => bySize.Less b a = false) := by
  induction l with
  | nil => simp [insertBySize]
  | cons y ys ih =>
    rw [List.pairwise_cons] at h
    unfold insertBySize
    split
    · rename_i hlt
      rw [List.pairwise_cons]
      refine ⟨?_, ih h.2⟩
      intro z hz
      rcases (List.mem_cons.mp ((insertBySize_perm x ys).subset hz)) with hzx | hzy
      · subst hzx
        simp only [bySize.Less, decide_eq_true_eq, decide_eq_false_iff_not] at hlt ⊢
        omega
      · exact h.1 z hzy
    · rename_i hlt
      rw [List.pairwise_cons]
      refine ⟨?_, List.pairwise_cons.mpr h⟩
      intro z hz
      rcases List.mem_cons.mp hz with hzy | hzy
      · subst hzy
        simpa using hlt
      · have h1 := h.1 z hzy
        simp only [bySize.Less, decide_eq_true_eq, decide_eq_false_iff_not, Bool.not_eq_true]
          at hlt h1 ⊢
        omega

theorem insertionSort_sorted (l : List Icon) :
    (insertionSort l).Pairwise (fun a b => bySize.Less b a = false) := by
  induction l with
  | nil => simp [insertionSort]
  | cons x xs ih => exact insertBySize_sorted x _ ih

theorem insertionSort_contract : SortContract insertionSort :=
  ⟨insertionSort_perm, insertionSort_sorted⟩

/-- In a list ordered by `bySize.Less`, the first `find?` hit is a largest hit. -/
theorem find_sorted_max (p : Icon → Bool) (s : List Icon)
    (hs : s.Pairwise (fun a b => bySize.Less b a = false)) (icon : Icon)
    (hf : s.find? p = some icon) :
    icon ∈ s ∧ p icon = true ∧ ∀ i ∈ s, p i = true → i.Size ≤ icon.Size := by
  induction s with
  | nil => simp at hf
  | cons y ys ih =>
    rw [List.pairwise_cons] at hs
    by_cases hy : p y = true
    · rw [List.find?_cons_of_pos _ hy] at hf
      cases hf
      refine ⟨List.mem_cons_self _ _, hy, ?_⟩
      intro i hi _
      rcases List.mem_cons.mp hi with h | h
      · subst h; exact le_refl _
      · have := hs.1 i h
        simp only [bySize.Less, decide_eq_false_iff_not] at this
        omega
    · rw [List.find?_cons_of_neg _ hy] at hf
      obtain ⟨h1, h2, h3⟩ := ih hs.2 hf
      refine ⟨List.mem_cons_of_mem _ h1, h2, ?_⟩
      intro i hi hpi
      rcases List.mem_cons.mp hi with h | h
      · subst h; exact absurd hpi hy
      · exact h3 i h hpi

/-- The head of a list ordered by `bySize.Less` is a largest element. -/
theorem head_sorted_max (s : List Icon)
    (hs : s.Pairwise (fun a b => bySize.Less b a = false)) (icon : Icon)
    (hh : s.head? = some icon) : icon ∈ s ∧ ∀ i ∈ s, i.Size ≤ icon.Size := by
  cases s with
  | nil => simp at hh
  | cons y ys =>
    simp only [List.head?_cons, Option.some.injEq] at hh
    subst hh
    rw [List.pairwise_cons] at hs
    refine ⟨List.mem_cons_self _ _, ?_⟩
    intro i hi
    rcases List.mem_cons.mp hi with h | h
    · subst h; exact le_refl _
    · have := hs.1 i h
      simp only [bySize.Less, decide_eq_false_iff_not] at this
      omega

/-- What `firstPreferred` returns: an icon of the earliest matching preference. -/
theorem firstPreferred_some (icons : List Icon) (ext : List GoString) (icon : Icon)
    (h : firstPreferred icons ext = some icon) :
    icons.find? (fun i => decide (i.Ext = icon.Ext)) = some icon ∧
    ∃ pre post, ext = pre ++ icon.Ext :: post ∧ ∀ q ∈ pre, ∀ i ∈ icons, i.Ext ≠ q := by
  unfold firstPreferred at h
  induction ext with
  | nil => simp at h
  | cons p ps ih =>
    rw [List.findSome?_cons] at h
    cases hp : icons.find? (fun i => decide (i.Ext = p)) with
    | some j =>
      rw [hp] at h
      have hji : j = icon := by simpa using h
      subst hji
      have hj : j.Ext = p := by simpa using List.find?_some hp
      subst hj
      exact ⟨hp, [], ps, rfl, by simp⟩
    | none =>
      rw [hp] at h
      obtain ⟨h1, pre, post, h2, h3⟩ := ih h
      refine ⟨h1, p :: pre, post, by rw [h2]; rfl, ?_⟩
      intro q hq i hi
      rcases List.mem_cons.mp hq with hqp | hqp
      · subst hqp
        have := List.find?_eq_none.mp hp i hi
        simpa using this
      · exact h3 q hqp i hi

/-- When `firstPreferred` finds nothing, no preference matches any icon. -/
theorem firstPreferred_none (icons : List Icon) (ext : List GoString)
    (h : firstPreferred icons ext = none) : ∀ q ∈ ext, ∀ i ∈ icons, i.Ext ≠ q := by
  unfold firstPreferred at h
  intro q hq i hi
  have := List.findSome?_eq_none_iff.mp h q hq
  simpa using List.find?_eq_none.mp this i hi

/-- When some preference matches some icon, `firstPreferred` finds an icon. -/
theorem firstPreferred_isSome (icons : List Icon) (ext : List GoString)
    (h : ∃ p ∈ ext, ∃ i ∈ icons, i.Ext = p) : ∃ icon, firstPreferred icons ext = some icon := by
  cases hf : firstPreferred icons ext with
  | some icon => exact ⟨icon, rfl⟩
  | none =>
    obtain ⟨p, hp, i, hi, hip⟩ := h
    exact absurd hip (firstPreferred_none icons ext hf p hp i hi)

/-! ## Selector: the claims -/

/-- C1: for a non-empty icon list and a preference list with at least one entry equal
to the ext of some icon, `findBestIcon` returns an icon of the list whose ext is the
earliest preference entry matching any icon, and whose size is the largest among the
icons with that ext. -/
theorem findBestIcon_preferred (sortSort : List Icon → List Icon)
    (hs : SortContract sortSort) (icons : List Icon) (ext : List GoString)
    (hne : icons ≠ []) (hmatch : ∃ p ∈ ext, ∃ i ∈ icons, i.Ext = p) :
    ∃ icon, findBestIcon sortSort icons ext = some icon ∧ icon ∈ icons ∧
      (∃ pre post, ext = pre ++ icon.Ext :: post ∧ ∀ q ∈ pre, ∀ i ∈ icons, i.Ext ≠ q) ∧
      (∀ i ∈ icons, i.Ext = icon.Ext → i.Size ≤ icon.Size) := by
  have hperm := hs.perm icons
  have hsorted := hs.sorted icons
  have hmatch' : ∃ p ∈ ext, ∃ i ∈ sortSort icons, i.Ext = p := by
    obtain ⟨p, hp, i, hi, hip⟩ := hmatch
    exact ⟨p, hp, i, hperm.mem_iff.mpr hi, hip⟩
  obtain ⟨icon, hicon⟩ := firstPreferred_isSome _ _ hmatch'
  obtain ⟨hfind, pre, post, hsplit, hpre⟩ := firstPreferred_some _ _ _ hicon
  obtain ⟨hmem, _, hmax⟩ := find_sorted_max _ _ hsorted _ hfind
  have hlen : icons.length ≠ 0 := by
    intro h0; exact hne (List.length_eq_zero.mp h0)
  have hext : ext.length ≠ 0 := by
    obtain ⟨p, hp, _⟩ := hmatch
    intro h0
    rw [List.length_eq_zero.mp h0] at hp
    exact absurd hp (List.not_mem_nil _)
  refine ⟨icon, ?_, hperm.mem_iff.mp hmem, ⟨pre, post, hsplit, ?_⟩, ?_⟩
  · unfold findBestIcon
    rw [if_neg hlen]
    by_cases h1 : (sortSort icons).length = 1
    · simp only [h1, if_true]
      obtain ⟨a, ha⟩ := List.length_eq_one.mp h1
      rw [ha] at hmem ⊢
      simp only [List.mem_singleton] at hmem
      rw [hmem]; rfl
    · simp only [h1, if_false, hext, hicon]
  · intro q hq i hi
    exact hpre q hq i (hperm.mem_iff.mpr hi)
  · intro i hi hie
    exact hmax i (hperm.mem_iff.mpr hi) (by simpa using hie)

/-- C1 at the fixture of `TestFindBestIcon`: the hypotheses hold there, the theorem
applies, and the code evaluates to the png:1 icon. -/
theorem findBestIcon_preferred_witness :
    (fixtureIcons ≠ [] ∧ ∃ p ∈ ["png".toList], ∃ i ∈ fixtureIcons, i.Ext = p) ∧
    (∃ icon, findBestIcon insertionSort fixtureIcons ["png".toList] = some icon ∧
      icon ∈ fixtureIcons ∧
      (∃ pre post, ["png".toList] = pre ++ icon.Ext :: post ∧
        ∀ q ∈ pre, ∀ i ∈ fixtureIcons, i.Ext ≠ q) ∧
      (∀ i ∈ fixtureIcons, i.Ext = icon.Ext → i.Size ≤ icon.Size)) ∧
    findBestIcon insertionSort fixtureIcons ["png".toList]
      = some ⟨[], [], 1, [], "png".toList⟩ :=
  ⟨⟨by decide, by decide⟩,
   findBestIcon_preferred insertionSort insertionSort_contract fixtureIcons ["png".toList]
     (by decide) (by decide),
   by decide⟩

/-- C2: for a non-empty icon list, when the preference list is empty or none of its
entries equals the ext of any icon, `findBestIcon` returns an icon of the list whose
size is the largest of the list, whatever the input order. -/
theorem findBestIcon_largest (sortSort : List Icon → List Icon)
    (hs : SortContract sortSort) (icons : List Icon) (ext : List GoString)
    (hne : icons ≠ []) (hnomatch : ∀ p ∈ ext, ∀ i ∈ icons, i.Ext ≠ p) :
    ∃ icon, findBestIcon sortSort icons ext = some icon ∧ icon ∈ icons ∧
      ∀ i ∈ icons, i.Size ≤ icon.Size := by
  have hperm := hs.perm icons
  have hsorted := hs.sorted icons
  have hlen : icons.length ≠ 0 := by
    intro h0; exact hne (List.length_eq_zero.mp h0)
  have hsne : sortSort icons ≠ [] := by
    intro h0
    rw [h0] at hperm
    exact hne (List.Perm.eq_nil hperm.symm)
  obtain ⟨a, t, hat⟩ := List.exists_cons_of_ne_nil hsne
  have hhead : (sortSort icons).head? = some a := by rw [hat]; rfl
  obtain ⟨hmem, hmax⟩ := head_sorted_max _ hsorted a hhead
  have hnone : firstPreferred (sortSort icons) ext = none := by
    cases hf : firstPreferred (sortSort icons) ext with
    | none => rfl
    | some j =>
      obtain ⟨hfind, pre, post, hsplit, _⟩ := firstPreferred_some _ _ _ hf
      have hj := (find_sorted_max _ _ hsorted _ hfind).1
      exact absurd rfl (hnomatch j.Ext (by rw [hsplit]; simp) j (hperm.mem_iff.mp hj))
  refine ⟨a, ?_, hperm.mem_iff.mp hmem, fun i hi => hmax i (hperm.mem_iff.mpr hi)⟩
  unfold findBestIcon
  rw [if_neg hlen]
  simp only [hhead, hnone, ite_self]

/-- C2 at the fixture "out of order, biggest last" with a preference that matches
nothing: the theorem applies and the code evaluates to the jpg:999 icon. -/
theorem findBestIcon_largest_witness :
    (fixtureIcons ≠ [] ∧ ∀ p ∈ ["ico".toList], ∀ i ∈ fixtureIcons, i.Ext ≠ p) ∧
    (∃ icon, findBestIcon insertionSort fixtureIcons ["ico".toList] = some icon ∧
      icon ∈ fixtureIcons ∧ ∀ i ∈ fixtureIcons, i.Size ≤ icon.Size) ∧
    findBestIcon insertionSort fixtureIcons ["ico".toList]
      = some ⟨[], [], 999, [], "jpg".toList⟩ ∧
    findBestIcon insertionSort fixtureIcons [] = some ⟨[], [], 999, [], "jpg".toList⟩ :=
  ⟨⟨by decide, by decide⟩,
   findBestIcon_largest insertionSort insertionSort_contract fixtureIcons ["ico".toList]
     (by decide) (by decide),
   by decide, by decide⟩

/-! ## Link extractor -/

/-- The helper `iconFromLink` agrees with the `link` rules of the specification. -/
theorem iconFromLink_eq_spec (t : Token) (hk : t.Typ = .StartTagToken ∨ t.Typ = .SelfClosingTagToken)
    (hd : t.Data = "link".toList) : iconFromLink t = specEmit t := by
  unfold iconFromLink specEmit
  rw [if_pos hk, if_pos hd]
  cases h1 : t.lookup "href".toList <;> cases h2 : t.lookup "rel".toList <;>
    simp only [Bool.or_eq_true] <;> split_ifs <;> simp_all

/-- The helper `iconFromMeta` agrees with the `meta` rule of the specification. -/
theorem iconFromMeta_eq_spec (t : Token) (hk : t.Typ = .StartTagToken ∨ t.Typ = .SelfClosingTagToken)
    (hd : t.Data = "meta".toList) : iconFromMeta t = specEmit t := by
  have hne : t.Data ≠ "link".toList := by rw [hd]; decide
  unfold iconFromMeta specEmit
  rw [if_pos hk, if_neg hne, if_pos hd]
  cases h1 : t.lookup "property".toList <;> cases h2 : t.lookup "content".toList <;>
    simp only [] <;> split_ifs <;> simp_all

/-- One start or self-closing tag appends exactly what the specification says it emits. -/
theorem appendTag_eq_spec (links : List GoString) (t : Token)
    (hk : t.Typ = .StartTagToken ∨ t.Typ = .SelfClosingTagToken) :
    appendTag links t = links ++ (specEmit t).toList := by
  unfold appendTag
  by_cases hl : t.Data = "link".toList
  · rw [if_pos hl, iconFromLink_eq_spec t hk hl]
    cases specEmit t <;> simp
  · rw [if_neg hl]
    by_cases hm : t.Data = "meta".toList
    · rw [if_pos hm, iconFromMeta_eq_spec t hk hm]
      cases specEmit t <;> simp
    · rw [if_neg hm]
      have : specEmit t = none := by
        unfold specEmit
        rw [if_pos hk, if_neg hl, if_neg hm]
      rw [this]; simp

/-- The loop of `parseLinks` on input that ends with `io.EOF`: it returns, after the
links already found, what the tokens before the first `ErrorToken` emit, in order. -/
theorem parseLoop_eof (toks : List Token) (links : List GoString) :
    parseLoop .EOF toks links =
      .ok (links ++ (toks.takeWhile (fun t => decide (t.Typ ≠ .ErrorToken))).filterMap specEmit) := by
  induction toks generalizing links with
  | nil => simp [parseLoop, parseEnd]
  | cons t rest ih =>
    unfold parseLoop
    by_cases he : t.Typ = .ErrorToken
    · simp [he, parseEnd, List.takeWhile]
    · rw [if_neg he]
      by_cases hk : t.Typ = .StartTagToken ∨ t.Typ = .SelfClosingTagToken
      · rw [if_pos hk, ih, appendTag_eq_spec links t hk]
        simp only [List.takeWhile, he, ne_eq, not_false_eq_true, decide_True,
          List.filterMap_cons]
        cases specEmit t <;> simp
      · rw [if_neg hk, ih]
        have : specEmit t = none := by unfold specEmit; rw [if_neg hk]
        simp only [List.takeWhile, he, ne_eq, not_false_eq_true, decide_True,
          List.filterMap_cons, this]

/-- C5: for every document that tokenizes without a lexing error, `parseLinks` returns,
in document order, exactly what the start and self-closing tags emit under the rules of
the specification (`specEmit`): a `link` tag its href when the href contains `icon.`
and ends with `.png` or `.jpg`, or else when its rel contains `apple-touch` or `icon`;
a `meta` tag with property `og:image` its content; every other tag nothing. On the
document of the test, the tag `<link href="/icon.mp4">` emits nothing. -/
theorem parseLinks_eq_spec :
    (∀ toks : List Token,
      parseLinks ⟨toks, .EOF⟩ =
        .ok ((toks.takeWhile (fun t => decide (t.Typ ≠ .ErrorToken))).filterMap specEmit)) ∧
    parseLinks ⟨fixtureTokens, .EOF⟩ =
      .ok ["/icon.png".toList, "/icon.jpg".toList, "/any.ico".toList,
        "data:image/png;base64,embeddedimage".toList, "/this/is/an/icon.jpg".toList,
        "/this/is/an/icon-2.jpg".toList, "/images/fb_icon_325x325.png".toList] := by
  refine ⟨fun toks => ?_, by decide⟩
  unfold parseLinks
  rw [parseLoop_eof]
  rfl

/-! ## Downloader: the batch -/

/-- Taking one element out of a list by position rearranges it. -/
theorem perm_getD_eraseIdx {α : Type} (l : List α) (k : Nat) (d : α) (hk : k < l.length) :
    l.Perm (l.getD k d :: l.eraseIdx k) := by
  induction l generalizing k with
  | nil => simp at hk
  | cons x xs ih =>
    cases k with
    | zero => simp
    | succ k =>
      have hk' : k < xs.length := by simpa using hk
      have h1 := ih k hk'
      simp only [List.getD_cons_succ, List.eraseIdx_cons_succ]
      exact (List.Perm.cons x h1).trans (List.Perm.swap _ _ _)

/-- The length of a list with one position erased. -/
theorem length_eraseIdx_lt {α : Type} (l : List α) (k : Nat) (hk : k < l.length) :
    (l.eraseIdx k).length + 1 = l.length := by
  induction l generalizing k with
  | nil => simp at hk
  | cons x xs ih =>
    cases k with
    | zero => simp
    | succ k =>
      have hk' : k < xs.length := by simpa using hk
      simp only [List.eraseIdx_cons_succ, List.length_cons]
      rw [ih k hk']

/-- What one delivery adds to the collected icons. -/
theorem deliver_icons (env : Env) (w : Nat × GoString) (c : Collected) :
    (deliver env w c).icons = c.icons ++ (downloadedIcon env w.2).toList := by
  unfold deliver downloadedIcon
  cases (downloadIcon env w.2).result <;> simp

/-- Whatever the scheduler does, the workers deliver the icons of the links that
download, each once. -/
theorem runWorkers_icons (env : Env) (fuel : Nat) (sched : List Nat)
    (pending : List (Nat × GoString)) (c : Collected) (hf : pending.length ≤ fuel) :
    (runWorkers env fuel sched pending c).icons.Perm
      (c.icons ++ pending.filterMap (fun w => downloadedIcon env w.2)) := by
  induction fuel generalizing sched pending c with
  | zero =>
    have : pending = [] := List.length_eq_zero.mp (Nat.le_zero.mp hf)
    subst this
    simp [runWorkers]
  | succ fuel ih =>
    cases pending with
    | nil => simp [runWorkers]
    | cons p ps =>
      simp only [runWorkers]
      have hk : sched.headD 0 % (ps.length + 1) < (p :: ps).length := by
        simpa using Nat.mod_lt _ (Nat.succ_pos _)
      have hlen := length_eraseIdx_lt (p :: ps) _ hk
      have hperm := perm_getD_eraseIdx (p :: ps) _ p hk
      have hf' : ((p :: ps).eraseIdx (sched.headD 0 % (ps.length + 1))).length ≤ fuel := by
        simp only [List.length_cons] at hf hlen
        omega
      refine (ih sched.tail _ _ hf').trans ?_
      rw [deliver_icons, List.append_assoc]
      refine List.Perm.append_left _ ?_
      have h2 := hperm.filterMap (fun w => downloadedIcon env w.2)
      refine List.Perm.trans ?_ h2.symm
      rw [List.filterMap_cons]
      cases downloadedIcon env ((p :: ps).getD (sched.headD 0 % (ps.length + 1)) p).2 <;> simp

/-- The links of `links.enum`, without their positions. -/
theorem filterMap_enum_snd {β : Type} (f : GoString → Option β) (links : List GoString) :
    links.enum.filterMap (fun w => f w.2) = links.filterMap f := by
  have h : links.enum.filterMap (fun w => f w.2) = (links.enum.map Prod.snd).filterMap f := by
    rw [List.filterMap_map]; rfl
  rw [h, List.enum_map_snd]

/-- C8: for every list of links and every scheduling of the workers, `downloadIcons`
returns a `nil` error and exactly the icons of the links whose own `downloadIcon`
succeeds, one per such link, in some order; a failing link is left out and does not
keep the others from being returned. -/
theorem downloadIcons_collects (env : Env) (sched : List Nat) (links : List GoString) :
    (downloadIcons env sched links).1.2 = none ∧
    (downloadIcons env sched links).1.1.Perm (links.filterMap (downloadedIcon env)) ∧
    (downloadIcons env sched links).1.1.length
      = (links.filter (fun l => (downloadedIcon env l).isSome)).length := by
  have hperm : (downloadIcons env sched links).1.1.Perm (links.filterMap (downloadedIcon env)) := by
    unfold downloadIcons
    have h := runWorkers_icons env links.length sched links.enum ⟨[], []⟩ (by simp)
    rw [filterMap_enum_snd] at h
    simpa using h
  refine ⟨rfl, hperm, ?_⟩
  rw [hperm.length_eq]
  clear hperm
  induction links with
  | nil => rfl
  | cons l ls ih =>
    rw [List.filterMap_cons, List.filter_cons]
    cases downloadedIcon env l <;> simp [ih]

/-! ## Downloader: the failure message -/

/-- The failure message holds the link as it is, between the index and the error. -/
theorem failureMessage_holds_link (ii : Nat) (l err : GoString) :
    l <:+: failureMessage ii l err :=
  ⟨"download failed for ".toList ++ (Nat.repr ii).toList ++ ": ".toList,
    ": ".toList ++ truncate err, by simp [failureMessage, List.append_assoc]⟩

/-- C10 (defect): `truncate` is applied to the error text, not to the link. For every
index, link and error the message sent to the logging sink holds the whole link; at
the link `longLink` of 120 units, whose download fails, `downloadIcons` logs one
message, and that message holds all 120 units of the link. -/
theorem downloadIcons_logs_whole_link :
    (∀ (ii : Nat) (l err : GoString), l <:+: failureMessage ii l err) ∧
    longLink.length = 120 ∧
    (downloadIcon offlineEnv longLink).result = .error "no such host".toList ∧
    (downloadIcons offlineEnv [] [longLink]).2
      = [failureMessage 0 longLink "no such host".toList] ∧
    longLink <:+: failureMessage 0 longLink "no such host".toList :=
  ⟨failureMessage_holds_link, by decide, by decide, by decide, failureMessage_holds_link _ _ _⟩

/-- Which worker delivers first is up to the scheduler: with two links that both
download, the icons come back in either order. -/
theorem downloadIcons_order_is_the_schedulers :
    ((downloadIcons fixtureEnv [0] ["u1".toList, "u2".toList]).1.1.map (fun i => i.Source)
      = ["u1".toList, "u2".toList]) ∧
    ((downloadIcons fixtureEnv [1] ["u1".toList, "u2".toList]).1.1.map (fun i => i.Source)
      = ["u2".toList, "u1".toList]) := by
  decide

/-! ## `encoding/base64`: decoding undoes encoding -/

theorem shl_or (a b i : Nat) (hb : b < 2 ^ i) : a <<< i ||| b = a * 2 ^ i + b := by
  rw [Nat.shiftLeft_eq, Nat.mul_comm, Nat.mul_add_lt_is_or hb]

theorem and_0x3F (x : Nat) : x &&& 0x3F = x % 64 := Nat.and_pow_two_sub_one_eq_mod x 6

/-- Every letter of the alphabet decodes to its own position. -/
theorem decodeMap_encodeChar : ∀ v, v < 64 → base64.decodeMap (base64.encodeChar v) = some v := by
  decide

/-- No letter of the alphabet is a line break. -/
theorem encodeChar_not_newline :
    ∀ v, v < 64 → base64.encodeChar v ≠ '\n' ∧ base64.encodeChar v ≠ '\r' := by
  decide

/-- The letters of a full quantum, as arithmetic on the three bytes. -/
theorem encode_val3 (a b c : Nat) (hb : b < 256) (hc : c < 256) :
    a <<< 16 ||| b <<< 8 ||| c = a * 65536 + b * 256 + c := by
  rw [Nat.lor_assoc, shl_or b c 8 (by simpa using hc), shl_or a _ 16 (by norm_num; omega)]
  norm_num; omega

theorem encode_val2 (a b : Nat) (hb : b < 256) :
    a <<< 16 ||| b <<< 8 = a * 65536 + b * 256 := by
  have h := encode_val3 a b 0 hb (by decide)
  simpa using h

theorem decode_val4 (v0 v1 v2 v3 : Nat) (h1 : v1 < 64) (h2 : v2 < 64) (h3 : v3 < 64) :
    v0 <<< 18 ||| v1 <<< 12 ||| v2 <<< 6 ||| v3 = v0 * 262144 + v1 * 4096 + v2 * 64 + v3 := by
  rw [Nat.lor_assoc, Nat.lor_assoc, shl_or v2 v3 6 (by simpa using h3),
    shl_or v1 _ 12 (by norm_num; omega), shl_or v0 _ 18 (by norm_num; omega)]
  norm_num; omega

theorem decode_val3 (v0 v1 v2 : Nat) (h1 : v1 < 64) (h2 : v2 < 64) :
    v0 <<< 18 ||| v1 <<< 12 ||| v2 <<< 6 = v0 * 262144 + v1 * 4096 + v2 * 64 := by
  have h := decode_val4 v0 v1 v2 0 h1 h2 (by decide)
  simpa using h

theorem decode_val2 (v0 v1 : Nat) (h1 : v1 < 64) :
    v0 <<< 18 ||| v1 <<< 12 = v0 * 262144 + v1 * 4096 := by
  have h := decode_val3 v0 v1 0 h1 (by decide)
  simpa using h

/-- The byte conversion gives back a byte from a number with the same residue. -/
theorem toByte_eq (v : Nat) (a : Byte) (h : v % 256 = a.val) : toByte v = a :=
  Fin.ext h

/-- The standard encoding holds no line break. -/
theorem encode_no_newline (b : List Byte) :
    (base64.EncodeToString b).filter (fun c => decide (c ≠ '\n' ∧ c ≠ '\r'))
      = base64.EncodeToString b := by
  rw [List.filter_eq_self]
  intro c hc
  have key : ∀ (l : List Byte) (c : Char), c ∈ base64.EncodeToString l →
      (c = '=' ∨ ∃ v, v < 64 ∧ c = base64.encodeChar v) := by
    intro l
    induction l using base64.EncodeToString.induct with
    | case1 a b c rest ih =>
      intro x hx
      simp only [base64.EncodeToString, List.mem_cons, and_0x3F] at hx
      rcases hx with h | h | h | h | h
      · exact Or.inr ⟨_, Nat.mod_lt _ (by decide), h⟩
      · exact Or.inr ⟨_, Nat.mod_lt _ (by decide), h⟩
      · exact Or.inr ⟨_, Nat.mod_lt _ (by decide), h⟩
      · exact Or.inr ⟨_, Nat.mod_lt _ (by decide), h⟩
      · exact ih x h
    | case2 a b =>
      intro x hx
      simp only [base64.EncodeToString, List.mem_cons, and_0x3F, List.mem_singleton,
        List.not_mem_nil, or_false] at hx
      rcases hx with h | h | h | h
      · exact Or.inr ⟨_, Nat.mod_lt _ (by decide), h⟩
      · exact Or.inr ⟨_, Nat.mod_lt _ (by decide), h⟩
      · exact Or.inr ⟨_, Nat.mod_lt _ (by decide), h⟩
      · exact Or.inl h
    | case3 a =>
      intro x hx
      simp only [base64.EncodeToString, List.mem_cons, and_0x3F, List.mem_singleton,
        List.not_mem_nil, or_false] at hx
      rcases hx with h | h | h | h
      · exact Or.inr ⟨_, Nat.mod_lt _ (by decide), h⟩
      · exact Or.inr ⟨_, Nat.mod_lt _ (by decide), h⟩
      · exact Or.inl h
      · exact Or.inl h
    | case4 =>
      intro x hx
      simp [base64.EncodeToString] at hx
  rcases key b c hc with h | ⟨v, hv, h⟩
  · subst h; decide
  · subst h
    have := encodeChar_not_newline v hv
    simp [this.1, this.2]

/-- The padding sign is not in the decoding table. -/
theorem decodeMap_pad : base64.decodeMap '=' = none := by decide

/-- Decoding the standard encoding of a byte sequence gives the sequence back. -/
theorem decodeQuanta_encode (b : List Byte) :
    base64.decodeQuanta (base64.EncodeToString b) = .ok b := by
  induction b using base64.EncodeToString.induct with
  | case1 a b c rest ih =>
    have ha := a.isLt
    have hb := b.isLt
    have hc := c.isLt
    simp only [base64.EncodeToString, base64.decodeQuanta, and_0x3F,
      decodeMap_encodeChar _ (Nat.mod_lt _ (by decide : 0 < 64)), ih]
    rw [decode_val4 _ _ _ _ (Nat.mod_lt _ (by decide)) (Nat.mod_lt _ (by decide))
      (Nat.mod_lt _ (by decide)), encode_val3 _ _ _ hb hc]
    simp only [Nat.shiftRight_eq_div_pow]
    congr 1
    refine congrArg₂ _ (toByte_eq _ a ?_) (congrArg₂ _ (toByte_eq _ b ?_)
      (congrArg₂ _ (toByte_eq _ c ?_) rfl))
    · norm_num; omega
    · norm_num; omega
    · omega
  | case2 a b =>
    have ha := a.isLt
    have hb := b.isLt
    simp only [base64.EncodeToString, base64.decodeQuanta, and_0x3F,
      decodeMap_encodeChar _ (Nat.mod_lt _ (by decide : 0 < 64)), decodeMap_pad, if_true]
    rw [decode_val3 _ _ _ (Nat.mod_lt _ (by decide)) (Nat.mod_lt _ (by decide)),
      encode_val2 _ _ hb]
    simp only [Nat.shiftRight_eq_div_pow]
    congr 1
    refine congrArg₂ _ (toByte_eq _ a ?_) (congrArg₂ _ (toByte_eq _ b ?_) rfl)
    · norm_num; omega
    · norm_num; omega
  | case3 a =>
    have ha := a.isLt
    simp only [base64.EncodeToString, base64.decodeQuanta, and_0x3F,
      decodeMap_encodeChar _ (Nat.mod_lt _ (by decide : 0 < 64)), decodeMap_pad, if_true]
    rw [decode_val2 _ _ (Nat.mod_lt _ (by decide))]
    simp only [Nat.shiftRight_eq_div_pow, Nat.shiftLeft_eq]
    congr 1
    refine congrArg₂ _ (toByte_eq _ a ?_) rfl
    norm_num; omega
  | case4 => rfl

/-- Reading the decoder over the standard encoding of `b` to its end yields `b`. -/
theorem readAllDecoder_encode (b : List Byte) :
    base64.readAllDecoder (base64.EncodeToString b) = .ok b := by
  unfold base64.readAllDecoder
  rw [encode_no_newline, decodeQuanta_encode]

/-! ## Downloader: embedded links -/

/-- The marker `base64,` is first found right after `data:image/png;`. -/
theorem index_base64_marker (e : GoString) :
    strings.Index ("data:image/png;base64,".toList ++ e) "base64,".toList = 15 := by
  have h1 : "data:image/png;base64,".toList = ['d', 'a', 't', 'a', ':', 'i', 'm', 'a', 'g', 'e',
      '/', 'p', 'n', 'g', ';', 'b', 'a', 's', 'e', '6', '4', ','] := by decide
  have h2 : "base64,".toList = ['b', 'a', 's', 'e', '6', '4', ','] := by decide
  rw [h1, h2]
  simp [strings.Index, strings.firstIndex, List.isPrefixOf]

/-- A link that starts with `data:image/png;base64,` is an embedded link. -/
theorem isEmbedded_png (e : GoString) :
    isEmbedded ("data:image/png;base64,".toList ++ e) = true := by
  have h1 : "data:image/png;base64,".toList = ['d', 'a', 't', 'a', ':', 'i', 'm', 'a', 'g', 'e',
      '/', 'p', 'n', 'g', ';', 'b', 'a', 's', 'e', '6', '4', ','] := by decide
  have h2 : "data:image/".toList = ['d', 'a', 't', 'a', ':', 'i', 'm', 'a', 'g', 'e', '/'] := by
    decide
  unfold isEmbedded strings.HasPrefix
  rw [h1, h2]
  simp [List.isPrefixOf]

/-- The payload `link[Index(link, "base64,")+7:]` of such a link is what follows the marker. -/
theorem payload_png (e : GoString) :
    ("data:image/png;base64,".toList ++ e).drop
      (strings.Index ("data:image/png;base64,".toList ++ e) "base64,".toList + 7).toNat = e := by
  rw [index_base64_marker]
  have h : ((15 : Int) + 7).toNat = ("data:image/png;base64,".toList).length := by decide
  rw [h, List.drop_left]

/-- C7: for every byte sequence `b` that the content sniffer accepts, `downloadIcon` on
the embedded link `data:image/png;base64,` followed by the standard base64 encoding of
`b` succeeds without a call to the fetcher, and the icon has the data `b`, the size
`len(b)`, the link as its source, and the mime and ext sniffed from `b`. -/
theorem downloadIcon_embedded_roundtrip (env : Env) (b : List Byte) (kind : Kind)
    (hsniff : env.filetypeMatch b = .ok kind) :
    (downloadIcon env ("data:image/png;base64,".toList ++ base64.EncodeToString b)).result
      = .ok { Source := "data:image/png;base64,".toList ++ base64.EncodeToString b,
              Data := b, Size := (b.length : Int), Mime := kind.MIME, Ext := kind.Extension } ∧
    (downloadIcon env ("data:image/png;base64,".toList ++ base64.EncodeToString b)).fetched
      = [] := by
  unfold downloadIcon
  rw [isEmbedded_png, if_pos rfl]
  simp only [payload_png, readAllDecoder_encode, sniffIcon, hsniff, and_self]

/-- C7 at the bytes of a PNG header: the sniffer accepts them, the theorem applies, and
the link and the icon are the expected ones. -/
theorem downloadIcon_embedded_roundtrip_witness :
    fixtureEnv.filetypeMatch (pngMagic ++ [0, 0, 0, 13])
      = .ok ⟨"image/png".toList, "png".toList⟩ ∧
    "data:image/png;base64,".toList ++ base64.EncodeToString (pngMagic ++ [0, 0, 0, 13])
      = "data:image/png;base64,iVBORw0KGgoAAAAN".toList ∧
    ((downloadIcon fixtureEnv
        ("data:image/png;base64,".toList ++ base64.EncodeToString (pngMagic ++ [0, 0, 0, 13]))).result
      = .ok { Source := "data:image/png;base64,".toList
                ++ base64.EncodeToString (pngMagic ++ [0, 0, 0, 13]),
              Data := pngMagic ++ [0, 0, 0, 13], Size := ((pngMagic ++ [0, 0, 0, 13]).length : Int),
              Mime := "image/png".toList, Ext := "png".toList } ∧
    (downloadIcon fixtureEnv
        ("data:image/png;base64,".toList ++ base64.EncodeToString (pngMagic ++ [0, 0, 0, 13]))).fetched
      = []) :=
  ⟨by decide, by decide,
   downloadIcon_embedded_roundtrip fixtureEnv (pngMagic ++ [0, 0, 0, 13])
     ⟨"image/png".toList, "png".toList⟩ (by decide)⟩

/-! ## Orchestrator -/

/-- C6 (defect): when the root document is fetched and link extraction succeeds with
zero links, `Infer` wraps the `nil` error of `getIconLinks`, and `errors.Wrap` of `nil`
is `nil`: it returns a `nil` icon with a `nil` error, not a failure. This holds for all
collaborators, URLs and preferences, and is evaluated on a document without links. -/
theorem Infer_no_links_nil_error :
    (∀ (env : Env) (sched : List Nat) (url : GoString) (preference : List GoString)
        (doc : List Byte), env.fetcher url = .ok doc →
        getIconLinks url (env.tokenize doc) = .ok ([], none) →
        Infer env sched url preference = .ok (none, none)) ∧
    getIconLinks "https://valid.com".toList (noLinkEnv.tokenize []) = .ok ([], none) ∧
    Infer noLinkEnv [] "https://valid.com".toList ["png".toList] = .ok (none, none) := by
  refine ⟨?_, by decide, by decide⟩
  intro env sched url preference doc hfetch hlinks
  unfold Infer
  rw [hfetch]
  simp only [hlinks]
  rfl

/-! ## URL resolver -/

/-- C9 (defect): `resolve` drops the error of `url.Parse` and uses the `nil` URL. For
every non-empty root and every non-empty path that does not start with `http`, if the
parser rejects the root (after `https://` is put in front where needed) or the path
(after `/` is put in front where needed), `resolve` panics instead of returning a
string. The path `/icon%.png`, with its malformed percent escape, is such a path. -/
theorem resolve_panics_on_rejected_input :
    (∀ root path : GoString, root ≠ [] → path ≠ [] →
        strings.HasPrefix path "http".toList = false →
        (parseOrNil (if !strings.HasPrefix root "http".toList then "https://".toList ++ root
            else root) = none ∨
          parseOrNil (if !strings.HasPrefix path "/".toList then "/".toList ++ path
            else path) = none) →
        resolve root path = .error .nilDereference) ∧
    parseOrNil "/icon%.png".toList = none ∧
    resolve "https://example.com".toList "/icon%.png".toList = .error .nilDereference := by
  refine ⟨?_, by decide, by decide⟩
  intro root path hr hp hhttp hrej
  unfold resolve
  rw [if_neg hr, if_neg hp, hhttp]
  simp only [Bool.false_eq_true, if_false]
  rcases hrej with h | h
  · rw [h]
  · rw [h]
    cases parseOrNil (if !strings.HasPrefix root "http".toList then "https://".toList ++ root
      else root) <;> rfl

/-! ## Link resolution over a document -/

/-- The element right after a front part of a list. -/
theorem getD_append_length {α : Type} (done : List α) (l : α) (ls : List α) (d : α) :
    (done ++ l :: ls).getD done.length d = l := by
  induction done with
  | nil => rfl
  | cons x xs ih =>
    simp only [List.cons_append, List.length_cons, List.getD_cons_succ]
    exact ih

/-- Overwriting the element right after a front part of a list. -/
theorem set_append_length {α : Type} (done : List α) (l r : α) (ls : List α) :
    (done ++ l :: ls).set done.length r = done ++ r :: ls := by
  induction done with
  | nil => rfl
  | cons x xs ih => simp [ih]

/-- The in-place loop over the positions of the links still to visit does what
resolving them one by one does, and leaves the links before them alone. -/
theorem resolveLinks_eq (rootURL : GoString) (todo done : List GoString) :
    resolveLinks rootURL (List.range' done.length todo.length) (done ++ todo) =
      match resolveEach rootURL todo with
      | .error p => .error p
      | .ok rs => .ok (done ++ rs) := by
  induction todo generalizing done with
  | nil => simp [resolveLinks, resolveEach]
  | cons l ls ih =>
    have hget : (done ++ l :: ls).getD done.length [] = l := getD_append_length _ _ _ _
    have hset : ∀ r, (done ++ l :: ls).set done.length r = (done ++ [r]) ++ ls := by
      intro r
      rw [set_append_length, List.append_assoc]; rfl
    have hlen : ∀ r : GoString, (done ++ [r]).length = done.length + 1 := by simp
    simp only [List.length_cons, List.range'_succ, resolveLinks, hget, resolveEach, resolveOne]
    by_cases he : isEmbedded l = true
    · simp only [he, if_true]
      have h := ih (done ++ [l])
      rw [hlen, List.append_assoc] at h
      simp only [List.singleton_append] at h
      rw [h]
      cases resolveEach rootURL ls <;> simp
    · simp only [he, if_false]
      cases hr : resolve rootURL l with
      | error p => rfl
      | ok r =>
        simp only [hset]
        have h := ih (done ++ [r])
        rw [hlen] at h
        rw [h]
        cases resolveEach rootURL ls <;> simp

/-- What it means for `resolveEach` to return: the result has the links position by
position, an embedded link unchanged and any other replaced by its resolution. -/
theorem resolveEach_ok_iff (rootURL : GoString) (ls rs : List GoString) :
    resolveEach rootURL ls = .ok rs ↔
      List.Forall₂ (fun l r => (isEmbedded l = true ∧ r = l) ∨
        (isEmbedded l = false ∧ resolve rootURL l = .ok r)) ls rs := by
  induction ls generalizing rs with
  | nil =>
    constructor
    · intro h
      simp only [resolveEach, Except.ok.injEq] at h
      subst h
      exact List.Forall₂.nil
    · intro h
      cases h
      rfl
  | cons l ls ih =>
    constructor
    · intro h
      simp only [resolveEach] at h
      cases h1 : resolveOne rootURL l with
      | error p => rw [h1] at h; simp at h
      | ok r =>
        rw [h1] at h
        cases h2 : resolveEach rootURL ls with
        | error p => rw [h2] at h; simp at h
        | ok rs' =>
          rw [h2] at h
          simp only [Except.ok.injEq] at h
          subst h
          refine List.Forall₂.cons ?_ ((ih rs').mp h2)
          unfold resolveOne at h1
          by_cases he : isEmbedded l = true
          · rw [if_pos he] at h1
            simp only [Except.ok.injEq] at h1
            exact Or.inl ⟨he, h1.symm⟩
          · rw [if_neg he] at h1
            exact Or.inr ⟨by simpa using he, h1⟩
    · intro h
      cases h with
      | cons h1 h2 =>
        rename_i r rs'
        have hone : resolveOne rootURL l = .ok r := by
          unfold resolveOne
          rcases h1 with ⟨he, hr⟩ | ⟨he, hr⟩
          · rw [if_pos he, hr]
          · rw [he]; simpa using hr
        simp only [resolveEach, hone, (ih rs').mpr h2]

/-- The loop of `getIconLinks` over all positions resolves the links one by one. -/
theorem getIconLinks_eq (rootURL : GoString) (doc : Tokenizer) (ls : List GoString)
    (h : parseLinks doc = .ok ls) :
    getIconLinks rootURL doc =
      match resolveEach rootURL ls with
      | .error p => .error p
      | .ok rs => .ok (rs, none) := by
  unfold getIconLinks
  rw [h]
  have h2 := resolveLinks_eq rootURL ls []
  simp only [List.length_nil, List.nil_append] at h2
  simp only [List.range_eq_range', h2]
  cases resolveEach rootURL ls <;> rfl

/-- C4 (defect, the one of C9): `getIconLinks` returns a list exactly when every link
that is not embedded resolves, and the list then has the links position by position,
an embedded link unchanged and any other replaced by `resolve(rootURL, l)`, as on the
document of the test; but where `resolve` panics, as on the link `/icon%.png`, so
does `getIconLinks`, and no list is returned. -/
theorem getIconLinks_panics_on_bad_escape :
    (∀ (rootURL : GoString) (doc : Tokenizer) (ls : List GoString), parseLinks doc = .ok ls →
      ∀ rs, getIconLinks rootURL doc = .ok (rs, none) ↔
        List.Forall₂ (fun l r => (isEmbedded l = true ∧ r = l) ∨
          (isEmbedded l = false ∧ resolve rootURL l = .ok r)) ls rs) ∧
    getIconLinks "https://valid.com".toList ⟨fixtureTokens, .EOF⟩ =
      .ok (["https://valid.com/icon.png".toList, "https://valid.com/icon.jpg".toList,
        "https://valid.com/any.ico".toList, "data:image/png;base64,embeddedimage".toList,
        "https://valid.com/this/is/an/icon.jpg".toList,
        "https://valid.com/this/is/an/icon-2.jpg".toList,
        "https://valid.com/images/fb_icon_325x325.png".toList], none) ∧
    getIconLinks "https://valid.com".toList ⟨[startTag "link" [("href", "/icon.png")]], .EOF⟩ =
      .ok (["https://valid.com/icon.png".toList], none) ∧
    parseLinks ⟨badEscapeTokens, .EOF⟩ = .ok ["/icon%.png".toList] ∧
    getIconLinks "https://valid.com".toList ⟨badEscapeTokens, .EOF⟩
      = .error .nilDereference := by
  refine ⟨?_, by decide, by decide, by decide, by decide⟩
  intro rootURL doc ls h rs
  rw [getIconLinks_eq rootURL doc ls h, ← resolveEach_ok_iff]
  cases resolveEach rootURL ls <;> simp

/-! ## `net/url` on plain input -/

/-- The units the path encoding leaves alone. -/
theorem shouldEscape_path_false (c : Char) (h : url.shouldEscape c .encodePath = false) :
    url.isAlnum c = true ∨
      c ∈ ['-', '_', '.', '~', '$', '&', '+', ',', '/', ':', ';', '=', '@'] := by
  unfold url.shouldEscape at h
  by_cases h1 : url.isAlnum c = true
  · exact Or.inl h1
  · right
    simp only [h1, Bool.false_eq_true, if_false, reduceCtorEq, or_self, false_and] at h
    by_cases h2 : c ∈ ['-', '_', '.', '~']
    · simp only [List.mem_cons, List.mem_singleton, List.not_mem_nil, or_false] at h2 ⊢
      rcases h2 with h2 | h2 | h2 | h2 <;> simp [h2]
    · rw [if_neg h2] at h
      by_cases h3 : c ∈ ['$', '&', '+', ',', '/', ':', ';', '=', '?', '@']
      · rw [if_pos h3] at h
        simp only [decide_eq_false_iff_not] at h
        simp only [List.mem_cons, List.mem_singleton, List.not_mem_nil, or_false] at h3 ⊢
        rcases h3 with h3 | h3 | h3 | h3 | h3 | h3 | h3 | h3 | h3 | h3 <;> simp [h3] at h ⊢
      · rw [if_neg h3] at h
        simp at h

/-- The units the host encoding leaves alone. -/
theorem shouldEscape_host_false (c : Char) (h : url.shouldEscape c .encodeHost = false) :
    url.isAlnum c = true ∨
      c ∈ ['!', '$', '&', Char.ofNat 39, '(', ')', '*', '+', ',', ';', '=', ':', '[', ']',
        '<', '>', Char.ofNat 34, '-', '_', '.', '~'] := by
  unfold url.shouldEscape at h
  by_cases h1 : url.isAlnum c = true
  · exact Or.inl h1
  · right
    simp only [h1, Bool.false_eq_true, if_false, reduceCtorEq, or_false, true_and] at h
    by_cases h2 : c ∈ ['!', '$', '&', Char.ofNat 39, '(', ')', '*', '+', ',', ';', '=', ':',
        '[', ']', '<', '>', Char.ofNat 34]
    · simp only [List.mem_cons, List.mem_singleton, List.not_mem_nil, or_false] at h2 ⊢
      tauto
    · rw [if_neg h2] at h
      by_cases h3 : c ∈ ['-', '_', '.', '~']
      · simp only [List.mem_cons, List.mem_singleton, List.not_mem_nil, or_false] at h3 ⊢
        tauto
      · rw [if_neg h3] at h
        split at h <;> simp at h

/-- A letter or digit has a code between 48 and 122. -/
theorem isAlnum_toNat (c : Char) (h : url.isAlnum c = true) : 48 ≤ c.toNat ∧ c.toNat ≤ 122 := by
  unfold url.isAlnum at h
  simp only [decide_eq_true_eq, Char.le_def] at h
  have e1 : ∀ a b : Char, a.val ≤ b.val ↔ a.toNat ≤ b.toNat := fun a b => Iff.rfl
  simp only [e1] at h
  have a1 : 'a'.toNat = 97 := rfl
  have a2 : 'z'.toNat = 122 := rfl
  have a3 : 'A'.toNat = 65 := rfl
  have a4 : 'Z'.toNat = 90 := rfl
  have a5 : '0'.toNat = 48 := rfl
  have a6 : '9'.toNat = 57 := rfl
  rw [a1, a2, a3, a4, a5, a6] at h
  omega

/-- A letter or digit is none of the signs that structure a URL. -/
theorem isAlnum_not_sign (c : Char) (h : url.isAlnum c = true) :
    c ∉ ['#', '?', '%', '/', '@', ':', '[', '+', '*', ' '] ∧
    ¬ (c.toNat < 0x20 ∨ c.toNat = 0x7f) := by
  have hn := isAlnum_toNat c h
  refine ⟨?_, by omega⟩
  intro hc
  simp only [List.mem_cons, List.mem_singleton, List.not_mem_nil, or_false] at hc
  rcases hc with rfl | rfl | rfl | rfl | rfl | rfl | rfl | rfl | rfl | rfl <;> revert h <;> decide

/-- What a unit of a plain path is not (a sign that ends the path or starts an escape,
a control unit), and that it is valid in an encoded path. -/
theorem plainPathUnit_facts (c : Char) (h : plainPathUnit c = true) :
    c ≠ '#' ∧ c ≠ '?' ∧ c ≠ '%' ∧ ¬ (c.toNat < 0x20 ∨ c.toNat = 0x7f) ∧
      url.validEncoded .encodePath [c] = true := by
  unfold plainPathUnit at h
  simp only [Bool.or_eq_true, Bool.not_eq_true', decide_eq_true_eq] at h
  rcases h with hs | hm
  · have hv : url.validEncoded .encodePath [c] = true := by
      simp [url.validEncoded, hs]
    rcases shouldEscape_path_false c hs with ha | hm
    · have hn := isAlnum_not_sign c ha
      have hl := hn.1
      simp only [List.mem_cons, List.mem_singleton, List.not_mem_nil, or_false, not_or] at hl
      exact ⟨hl.1, hl.2.1, hl.2.2.1, hn.2, hv⟩
    · simp only [List.mem_cons, List.mem_singleton, List.not_mem_nil, or_false] at hm
      rcases hm with rfl | rfl | rfl | rfl | rfl | rfl | rfl | rfl | rfl | rfl | rfl | rfl | rfl <;>
        exact ⟨by decide, by decide, by decide, by decide, hv⟩
  · simp only [List.mem_cons, List.mem_singleton, List.not_mem_nil, or_false] at hm
    rcases hm with rfl | rfl | rfl | rfl | rfl | rfl | rfl <;>
      exact ⟨by decide, by decide, by decide, by decide, by decide⟩

/-- What a unit of a plain hostname is not, and that the host encoding leaves it alone. -/
theorem plainHostUnit_facts (c : Char) (h : plainHostUnit c = true) :
    c ≠ '#' ∧ c ≠ '?' ∧ c ≠ '%' ∧ c ≠ '/' ∧ c ≠ '@' ∧ c ≠ ':' ∧ c ≠ '[' ∧
      ¬ (c.toNat < 0x20 ∨ c.toNat = 0x7f) ∧ url.shouldEscape c .encodeHost = false := by
  unfold plainHostUnit at h
  simp only [Bool.and_eq_true, Bool.not_eq_true', decide_eq_true_eq] at h
  obtain ⟨hs, hcolon, hbracket⟩ := h
  rcases shouldEscape_host_false c hs with ha | hm
  · have hn := isAlnum_not_sign c ha
    have hl := hn.1
    simp only [List.mem_cons, List.mem_singleton, List.not_mem_nil, or_false, not_or] at hl
    exact ⟨hl.1, hl.2.1, hl.2.2.1, hl.2.2.2.1, hl.2.2.2.2.1, hcolon, hbracket, hn.2, hs⟩
  · refine ⟨?_, ?_, ?_, ?_, ?_, hcolon, hbracket, ?_, hs⟩ <;>
      simp only [List.mem_cons, List.mem_singleton, List.not_mem_nil, or_false] at hm <;>
      rcases hm with rfl | rfl | rfl | rfl | rfl | rfl | rfl | rfl | rfl | rfl | rfl | rfl |
        rfl | rfl | rfl | rfl | rfl | rfl | rfl | rfl | rfl <;> decide

/-- Without the separator in it, a string is cut into itself and nothing. -/
theorem Cut_absent (sep : Char) (s : GoString) (h : sep ∉ s) :
    strings.Cut sep s = (s, [], false) := by
  induction s with
  | nil => rfl
  | cons c s ih =>
    have hc : c ≠ sep := fun e => h (by rw [e]; exact List.mem_cons_self _ _)
    have hs : sep ∉ s := fun e => h (List.mem_cons_of_mem _ e)
    simp only [strings.Cut, if_neg hc, ih hs]

/-- The cut at the first separator, when what is before it is free of it. -/
theorem Cut_append (sep : Char) (s t : GoString) (h : sep ∉ s) :
    strings.Cut sep (s ++ sep :: t) = (s, t, true) := by
  induction s with
  | nil => simp [strings.Cut]
  | cons c s ih =>
    have hc : c ≠ sep := fun e => h (by rw [e]; exact List.mem_cons_self _ _)
    have hs : sep ∉ s := fun e => h (List.mem_cons_of_mem _ e)
    rw [List.cons_append, strings.Cut, if_neg hc, ih hs]

/-- Without the separator in it, a string has no last occurrence of it. -/
theorem cutLast_absent (sep : Char) (s : GoString) (h : sep ∉ s) :
    strings.cutLast sep s = none := by
  unfold strings.cutLast
  rw [Cut_absent sep s.reverse (by simpa using h)]
  rfl

/-- Decoding a plain path leaves it as it is. -/
theorem unescape_plainPath (p : GoString) (h : p.all plainPathUnit = true) :
    url.unescape .encodePath p = .ok p := by
  induction p with
  | nil => rfl
  | cons c p ih =>
    simp only [List.all_cons, Bool.and_eq_true] at h
    have hf := plainPathUnit_facts c h.1
    unfold url.unescape
    rw [if_neg hf.2.2.1]
    simp only [ih h.2, reduceCtorEq, false_and, or_self, if_false, ite_self]
    split
    · rename_i hplus; rw [hplus]
    · rfl

/-- A plain path is valid as an encoded path. -/
theorem validEncoded_plainPath (p : GoString) (h : p.all plainPathUnit = true) :
    url.validEncoded .encodePath p = true := by
  induction p with
  | nil => rfl
  | cons c p ih =>
    simp only [List.all_cons, Bool.and_eq_true] at h
    have hf := (plainPathUnit_facts c h.1).2.2.2.2
    have ih' := ih h.2
    unfold url.validEncoded at hf ih' ⊢
    simp only [List.all_cons, List.all_nil, Bool.and_true] at hf
    rw [List.all_cons, hf, ih']
    rfl

/-- Decoding a plain hostname leaves it as it is. -/
theorem unescape_plainHost (s : GoString) (h : s.all plainHostUnit = true) :
    url.unescape .encodeHost s = .ok s := by
  induction s with
  | nil => rfl
  | cons c s ih =>
    simp only [List.all_cons, Bool.and_eq_true] at h
    have hf := plainHostUnit_facts c h.1
    unfold url.unescape
    rw [if_neg hf.2.2.1]
    simp only [ih h.2, hf.2.2.2.2.2.2.2.2, Bool.false_eq_true, and_false, if_false,
      reduceCtorEq]
    split
    · rename_i hplus; rw [hplus]
    · rfl

/-- Encoding a plain hostname leaves it as it is. -/
theorem escape_plainHost (s : GoString) (h : s.all plainHostUnit = true) :
    url.escape .encodeHost s = s := by
  induction s with
  | nil => rfl
  | cons c s ih =>
    simp only [List.all_cons, Bool.and_eq_true] at h
    have hf := plainHostUnit_facts c h.1
    simp only [url.escape, hf.2.2.2.2.2.2.2.2, Bool.false_eq_true, if_false, ih h.2]

/-- Setting a plain path keeps it as the path, with the raw path of `rawPathOf`. -/
theorem setPath_plain (u : url.URL) (p : GoString) (h : p.all plainPathUnit = true) :
    url.URL.setPath u p = .ok { u with Path := p, RawPath := rawPathOf p } := by
  unfold url.URL.setPath rawPathOf
  simp only [unescape_plainPath p h]
  split <;> rfl

/-- A plain hostname holds none of the signs that structure a URL. -/
theorem plainHost_not_mem (s : GoString) (h : s.all plainHostUnit = true) :
    '#' ∉ s ∧ '?' ∉ s ∧ '/' ∉ s ∧ '@' ∉ s ∧ ':' ∉ s := by
  rw [List.all_eq_true] at h
  refine ⟨?_, ?_, ?_, ?_, ?_⟩ <;> intro hm <;> have hf := plainHostUnit_facts _ (h _ hm) <;>
    simp at hf

/-- A plain path holds no sign that ends the path. -/
theorem plainPath_not_mem (s : GoString) (h : s.all plainPathUnit = true) :
    '#' ∉ s ∧ '?' ∉ s := by
  rw [List.all_eq_true] at h
  refine ⟨?_, ?_⟩ <;> intro hm <;> have hf := plainPathUnit_facts _ (h _ hm) <;> simp at hf

/-- A plain hostname is a host without port or brackets. -/
theorem parseHost_plain (s : GoString) (h : s.all plainHostUnit = true) :
    url.parseHost s = .ok s := by
  have hm := plainHost_not_mem s h
  have hb : strings.HasPrefix s ['['] = false := by
    cases s with
    | nil => rfl
    | cons c s =>
      simp only [List.all_cons, Bool.and_eq_true] at h
      have hf := plainHostUnit_facts c h.1
      have hne : ¬ '[' = c := fun e => hf.2.2.2.2.2.2.1 e.symm
      simp [strings.HasPrefix, List.isPrefixOf, hne]
  unfold url.parseHost
  rw [hb, cutLast_absent ':' s hm.2.2.2.2]
  simp only [Bool.false_eq_true, if_false, unescape_plainHost s h]

/-- A plain hostname is an authority without user information. -/
theorem parseAuthority_plain (s : GoString) (h : s.all plainHostUnit = true) :
    url.parseAuthority s = .ok (none, s) := by
  have hm := plainHost_not_mem s h
  unfold url.parseAuthority
  rw [cutLast_absent '@' s hm.2.2.2.1]
  simp only [parseHost_plain s h]

/-- The tail of `parse` on `//`, a plain hostname and a plain path. -/
theorem parseTail_plain (u : url.URL) (s t : GoString) (hu : u.Scheme ≠ [])
    (hs : s.all plainHostUnit = true) (ht : ('/' :: t).all plainPathUnit = true) :
    url.parseTail u ('/' :: '/' :: (s ++ '/' :: t)) =
      .ok { u with User := none, Host := s, Path := '/' :: t, RawPath := rawPathOf ('/' :: t) } := by
  have hm := plainHost_not_mem s hs
  have h2 : strings.HasPrefix ('/' :: '/' :: (s ++ '/' :: t)) "//".toList = true := by
    have : "//".toList = ['/', '/'] := rfl
    rw [this]
    simp [strings.HasPrefix, List.isPrefixOf]
  unfold url.parseTail
  rw [if_pos ⟨Or.inl hu, h2⟩]
  simp only [List.drop_succ_cons, List.drop_zero, Cut_append '/' s t hm.2.2.1, if_true,
    parseAuthority_plain s hs]
  rw [setPath_plain _ _ ht]

/-- No unit of a plain hostname or a plain path is a control unit. -/
theorem noCTL_plain (s p : GoString) (hs : s.all plainHostUnit = true)
    (hp : p.all plainPathUnit = true) :
    url.stringContainsCTLByte ("https://".toList ++ s ++ p) = false := by
  have e : "https://".toList = ['h', 't', 't', 'p', 's', ':', '/', '/'] := rfl
  unfold url.stringContainsCTLByte
  rw [List.any_eq_false]
  intro c hc
  rw [List.all_eq_true] at hs hp
  simp only [e, List.append_assoc, List.mem_append, List.mem_cons, List.mem_singleton,
    List.not_mem_nil, or_false] at hc
  rcases hc with (rfl | rfl | rfl | rfl | rfl | rfl | rfl | rfl) | hc | hc
  all_goals first
    | decide
    | (have hf := plainHostUnit_facts _ (hs _ hc); simpa using hf.2.2.2.2.2.2.2.1)
    | (have hf := plainPathUnit_facts _ (hp _ hc); simpa using hf.2.2.2.1)

/-- The scheme of a text that starts with `https:`. -/
theorem getScheme_https (rest : GoString) :
    url.getScheme ('h' :: 't' :: 't' :: 'p' :: 's' :: ':' :: rest)
      = .ok (['h', 't', 't', 'p', 's'], rest) := by
  have h1 : ('a' ≤ 'h' ∧ 'h' ≤ 'z') ∨ ('A' ≤ 'h' ∧ 'h' ≤ 'Z') := by decide
  have h2 : ('a' ≤ 't' ∧ 't' ≤ 'z') ∨ ('A' ≤ 't' ∧ 't' ≤ 'Z') := by decide
  have h3 : ('a' ≤ 'p' ∧ 'p' ≤ 'z') ∨ ('A' ≤ 'p' ∧ 'p' ≤ 'Z') := by decide
  have h4 : ('a' ≤ 's' ∧ 's' ≤ 'z') ∨ ('A' ≤ 's' ∧ 's' ≤ 'Z') := by decide
  have h5 : ¬ (('a' ≤ ':' ∧ ':' ≤ 'z') ∨ ('A' ≤ ':' ∧ ':' ≤ 'Z')) := by decide
  have h6 : ¬ (('0' ≤ ':' ∧ ':' ≤ '9') ∨ ':' = '+' ∨ ':' = '-' ∨ ':' = '.') := by decide
  unfold url.getScheme
  rw [url.getSchemeLoop, if_pos h1, url.getSchemeLoop, if_pos h2, url.getSchemeLoop, if_pos h2,
    url.getSchemeLoop, if_pos h3, url.getSchemeLoop, if_pos h4, url.getSchemeLoop, if_neg h5,
    if_neg h6, if_pos rfl, if_neg (by simp)]
  rfl

/-- The parse of `https://`, a plain hostname and a plain path, fragment aside. -/
theorem parse_plain (s t : GoString) (hs : s.all plainHostUnit = true)
    (ht : ('/' :: t).all plainPathUnit = true) :
    url.parse ("https://".toList ++ s ++ '/' :: t) =
      .ok { Scheme := "https".toList, Host := s, Path := '/' :: t,
            RawPath := rawPathOf ('/' :: t) } := by
  have hctl := noCTL_plain s ('/' :: t) hs ht
  have e : "https://".toList = ['h', 't', 't', 'p', 's', ':', '/', '/'] := rfl
  have hq : '?' ∉ '/' :: '/' :: (s ++ '/' :: t) := by
    have h1 := (plainHost_not_mem s hs).2.1
    have h2 := (plainPath_not_mem _ ht).2
    simp only [List.mem_cons, List.mem_append, not_or] at h2 ⊢
    exact ⟨by decide, by decide, h1, h2.1, h2.2⟩
  have hcount : List.count '?' ('/' :: '/' :: (s ++ '/' :: t)) = 0 := List.count_eq_zero.mpr hq
  unfold url.parse
  rw [hctl]
  rw [e] at *
  simp only [Bool.false_eq_true, if_false, List.cons_append, List.nil_append]
  rw [if_neg (by simp), getScheme_https]
  simp only [hcount, Cut_absent '?' _ hq]
  have hlow : List.map Char.toLower ['h', 't', 't', 'p', 's'] = "https".toList := by decide
  have hpre : strings.HasPrefix ('/' :: '/' :: (s ++ '/' :: t)) ['/'] = true := by
    simp [strings.HasPrefix, List.isPrefixOf]
  simp only [hlow, hpre, zero_ne_one, decide_False, Bool.and_false, Bool.false_eq_true, if_false,
    Bool.not_true]
  rw [parseTail_plain _ s t (by decide) hs ht]

/-- The parse of `https://`, a plain hostname and a plain path. -/
theorem Parse_plain (s t : GoString) (hs : s.all plainHostUnit = true)
    (ht : ('/' :: t).all plainPathUnit = true) :
    url.Parse ("https://".toList ++ s ++ '/' :: t) =
      .ok { Scheme := "https".toList, Host := s, Path := '/' :: t,
            RawPath := rawPathOf ('/' :: t) } := by
  have e : "https://".toList = ['h', 't', 't', 'p', 's', ':', '/', '/'] := rfl
  have hh : '#' ∉ "https://".toList ++ s ++ '/' :: t := by
    have h1 := (plainHost_not_mem s hs).1
    have h2 := (plainPath_not_mem _ ht).1
    rw [e]
    simp only [List.mem_cons, List.mem_append, not_or, List.not_mem_nil, or_false] at h2 ⊢
    exact ⟨⟨⟨by decide, by decide, by decide, by decide, by decide, by decide, by decide,
      by decide⟩, h1⟩, h2.1, h2.2⟩
  unfold url.Parse
  rw [Cut_absent '#' _ hh]
  simp only [parse_plain s t hs ht, if_true]

/-- Splitting at a separator gives at least one element. -/
theorem Split_ne_nil (sep : Char) (s : GoString) : strings.Split sep s ≠ [] := by
  cases s with
  | nil => simp [strings.Split]
  | cons c s =>
    unfold strings.Split
    split
    · simp
    · split <;> simp

/-- The elements of a path, each after a `/`, make up `/` and the path. -/
theorem joinSlash_Split (s : GoString) : joinSlash (strings.Split '/' s) = '/' :: s := by
  induction s with
  | nil => rfl
  | cons c s ih =>
    unfold strings.Split
    split
    · rename_i hc
      rw [joinSlash, ih, hc]; rfl
    · cases hsp : strings.Split '/' s with
      | nil => exact absurd hsp (Split_ne_nil _ _)
      | cons seg segs =>
        rw [hsp] at ih
        simp only [joinSlash, List.cons_append, List.cons.injEq, true_and] at ih ⊢
        rw [ih]

/-- The loop of `resolvePath` over elements that are neither `.` nor `..`, once the
first element is written: every element is appended after a `/`. -/
theorem foldl_resolveStep_plain (elems : List GoString) (dst : GoString)
    (h : ∀ e ∈ elems, e ≠ ['.'] ∧ e ≠ "..".toList) :
    elems.foldl url.resolveStep (dst, false) = (dst ++ joinSlash elems, false) := by
  induction elems generalizing dst with
  | nil => simp [joinSlash]
  | cons e es ih =>
    have he := h e (List.mem_cons_self _ _)
    have hes : ∀ x ∈ es, x ≠ ['.'] ∧ x ≠ "..".toList := fun x hx => h x (List.mem_cons_of_mem _ hx)
    rw [List.foldl_cons]
    have hstep : url.resolveStep (dst, false) e = (dst ++ '/' :: e, false) := by
      unfold url.resolveStep
      rw [if_neg he.1, if_neg he.2]
      simp
    rw [hstep, ih _ hes]
    simp [joinSlash]

/-- On a path that starts with `/` and has no `.` or `..` element, `resolvePath`
against an empty reference gives the path back. -/
theorem resolvePath_plain (t : GoString)
    (h : (strings.Split '/' ('/' :: t)).all (fun e => decide (e ≠ ['.'] ∧ e ≠ "..".toList)) = true) :
    url.resolvePath ('/' :: t) [] = '/' :: t := by
  have hsplit : strings.Split '/' ('/' :: t) = [] :: strings.Split '/' t := by
    simp [strings.Split]
  rw [hsplit, List.all_cons, Bool.and_eq_true, List.all_eq_true] at h
  have hel : ∀ e ∈ strings.Split '/' t, e ≠ ['.'] ∧ e ≠ "..".toList := by
    intro e he
    simpa using h.2 e he
  have hfirst : url.resolveStep (['/'], true) [] = (['/'], false) := by decide
  have hfold : (strings.Split '/' ('/' :: t)).foldl url.resolveStep (['/'], true)
      = ('/' :: '/' :: t, false) := by
    rw [hsplit, List.foldl_cons, hfirst, foldl_resolveStep_plain _ _ hel, joinSlash_Split]
    rfl
  have hlast : ¬ ((strings.Split '/' ('/' :: t)).getLast? = some ['.'] ∨
      (strings.Split '/' ('/' :: t)).getLast? = some "..".toList) := by
    have hall : ∀ e ∈ strings.Split '/' ('/' :: t), e ≠ ['.'] ∧ e ≠ "..".toList := by
      intro e he
      rw [hsplit] at he
      rcases List.mem_cons.mp he with rfl | he
      · exact ⟨by decide, by decide⟩
      · exact hel e he
    intro hl
    rcases hl with hl | hl
    · exact (hall _ (List.mem_of_getLast?_eq_some hl)).1 rfl
    · exact (hall _ (List.mem_of_getLast?_eq_some hl)).2 rfl
  unfold url.resolvePath
  simp only [if_true, hfold, if_neg hlast]
  simp

/-- The escaped path of a URL with a plain path and the raw path `setPath` gave it. -/
theorem EscapedPath_plain (u : url.URL) (t : GoString) (hp : u.Path = '/' :: t)
    (hr : u.RawPath = rawPathOf ('/' :: t)) (ht : ('/' :: t).all plainPathUnit = true) :
    url.URL.EscapedPath u = '/' :: t := by
  unfold url.URL.EscapedPath
  rw [hr, hp]
  unfold rawPathOf
  by_cases he : '/' :: t = url.escape .encodePath ('/' :: t)
  · rw [if_pos he]
    simp only [ne_eq, not_true_eq_false, false_and, if_false]
    rw [if_neg (by simp), ← he]
  · rw [if_neg he, if_pos ⟨by simp, validEncoded_plainPath _ ht, unescape_plainPath _ ht⟩]

/-- Resolving the URL made of `https://`, a plain hostname and a plain path against
any base gives that URL back. -/
theorem ResolveReference_plain (base : url.URL) (s t : GoString)
    (ht : plainPath ('/' :: t) = true) :
    url.URL.ResolveReference base
        { Scheme := "https".toList, Host := s, Path := '/' :: t, RawPath := rawPathOf ('/' :: t) }
      = { Scheme := "https".toList, Host := s, Path := '/' :: t,
          RawPath := rawPathOf ('/' :: t) } := by
  unfold plainPath at ht
  simp only [Bool.and_eq_true] at ht
  have hsch : ("https".toList : GoString) ≠ [] := by decide
  unfold url.URL.ResolveReference
  simp only [hsch, if_false, ne_eq, not_false_eq_true, true_or, if_true]
  rw [EscapedPath_plain _ t rfl rfl ht.1.2, resolvePath_plain t ht.2]
  unfold url.URL.setPathIgnoringError
  rw [setPath_plain _ _ ht.1.2]

/-- The text of the URL made of `https://`, a plain hostname and a plain path. -/
theorem String_plain (s t : GoString) (hs : s.all plainHostUnit = true)
    (ht : ('/' :: t).all plainPathUnit = true) :
    url.URL.String
        { Scheme := "https".toList, Host := s, Path := '/' :: t, RawPath := rawPathOf ('/' :: t) }
      = "https://".toList ++ s ++ '/' :: t := by
  have hsch : ("https".toList : GoString) ≠ [] := by decide
  have hpath : url.URL.EscapedPath
      { Scheme := "https".toList, Host := s, Path := '/' :: t, RawPath := rawPathOf ('/' :: t) }
      = '/' :: t := EscapedPath_plain _ t rfl rfl ht
  have hauth : url.URL.authorityString
      { Scheme := "https".toList, Host := s, Path := '/' :: t, RawPath := rawPathOf ('/' :: t) }
      = "https://".toList ++ s := by
    unfold url.URL.authorityString
    simp only [hsch, ne_eq, not_false_eq_true, if_true, true_or, Bool.false_eq_true, false_and,
      if_false, reduceCtorEq, or_true, not_true_eq_false, or_false]
    by_cases h0 : s = []
    · subst h0; rfl
    · rw [if_pos h0, escape_plainHost s hs]; rfl
  unfold url.URL.String
  simp only [hpath, hauth, ne_eq, not_true_eq_false, if_false, List.head?_cons, false_and,
    and_false, Bool.false_eq_true, or_self, List.append_nil]
  rw [if_neg]
  · simp
  · intro h
    have := congrArg List.length h.1
    simp at this

/-- The third rule on plain input: when the parser accepts root and path, the hostname
is plain and the path component is plain, `resolve` returns `https://`, the hostname
and the path component. -/
theorem resolve_of_plain (root path : GoString) (rootURL pathURL : url.URL)
    (hr : root ≠ []) (hp : path ≠ []) (hhttp : strings.HasPrefix path "http".toList = false)
    (hroot : parseOrNil (withScheme root) = some rootURL)
    (hpath : parseOrNil (withSlash path) = some pathURL)
    (hhost : (url.URL.Hostname rootURL).all plainHostUnit = true)
    (hplain : plainPath pathURL.Path = true) :
    resolve root path =
      .ok ("https://".toList ++ url.URL.Hostname rootURL ++ pathURL.Path) := by
  obtain ⟨t, ht⟩ : ∃ t, pathURL.Path = '/' :: t := by
    unfold plainPath at hplain
    simp only [Bool.and_eq_true, beq_iff_eq] at hplain
    cases hP : pathURL.Path with
    | nil => rw [hP] at hplain; simp at hplain
    | cons c t =>
      rw [hP] at hplain
      simp only [List.head?_cons, Option.some.injEq] at hplain
      exact ⟨t, by rw [hplain.1.1]⟩
  have hplain' := hplain
  rw [ht] at hplain'
  have hunits : ('/' :: t).all plainPathUnit = true := by
    unfold plainPath at hplain'
    simp only [Bool.and_eq_true] at hplain'
    exact hplain'.1.2
  have hclean : parseOrNil ("https://".toList ++ url.URL.Hostname rootURL ++ '/' :: t)
      = some { Scheme := "https".toList, Host := url.URL.Hostname rootURL, Path := '/' :: t,
               RawPath := rawPathOf ('/' :: t) } := by
    unfold parseOrNil
    rw [Parse_plain _ t hhost hunits]
  unfold withScheme at hroot
  unfold withSlash at hpath
  unfold resolve
  rw [if_neg hr, if_neg hp, hhttp]
  simp only [Bool.false_eq_true, if_false, hroot, hpath, ht, hclean]
  rw [ResolveReference_plain rootURL _ t hplain', String_plain _ t hhost hunits]

/-- C3, amended: `resolve(root, path)` follows the reference rules (the empty string if
root or path is empty; the path if it starts with `http`; otherwise `https://`, the
hostname of the root and the path component of the path) on every input for which a
rule of the first two applies or the input is plain: the parser accepts root and
path, the hostname has only letters, digits and `-._~`, and the path component starts
with `/`, has only units the path encoding leaves alone and no `.` or `..` element. -/
theorem resolve_eq_referenceRules_on_plain (root path : GoString)
    (h : root = [] ∨ path = [] ∨ strings.HasPrefix path "http".toList = true ∨
      plainInput root path = true) :
    ∃ s, referenceRules root path = some s ∧ resolve root path = .ok s := by
  by_cases hr : root = []
  · exact ⟨[], by simp [referenceRules, hr], by simp [resolve, hr]⟩
  by_cases hp : path = []
  · exact ⟨[], by simp [referenceRules, hp], by simp [resolve, hp]⟩
  by_cases hhttp : strings.HasPrefix path "http".toList = true
  · refine ⟨path, ?_, ?_⟩
    · unfold referenceRules
      rw [if_neg (by simp [hr, hp]), if_pos hhttp]
    · unfold resolve
      rw [if_neg hr, if_neg hp, if_pos hhttp]
  · have hplain : plainInput root path = true := by
      rcases h with h | h | h | h
      · exact absurd h hr
      · exact absurd h hp
      · exact absurd h hhttp
      · exact h
    have hhttp' : strings.HasPrefix path "http".toList = false := by simpa using hhttp
    unfold plainInput at hplain
    cases hroot : parseOrNil (withScheme root) with
    | none => rw [hroot] at hplain; simp at hplain
    | some rootURL =>
      cases hpath : parseOrNil (withSlash path) with
      | none => rw [hroot, hpath] at hplain; simp at hplain
      | some pathURL =>
        rw [hroot, hpath] at hplain
        simp only [Bool.and_eq_true] at hplain
        refine ⟨"https://".toList ++ url.URL.Hostname rootURL ++ pathURL.Path, ?_, ?_⟩
        · unfold referenceRules
          rw [if_neg (by simp [hr, hp]), if_neg hhttp, hroot, hpath]
        · exact resolve_of_plain root path rootURL pathURL hr hp hhttp' hroot hpath
            hplain.1 hplain.2

/-- C3 on a root with a path of its own and a path with query and fragment: the input
is plain, the theorem applies, and the code evaluates to the hostname followed by the
path component alone. -/
theorem resolve_eq_referenceRules_on_plain_witness :
    plainInput "https://www.example.com/extra".toList "/path/to/icon.png?x=1#top".toList = true ∧
    (∃ s, referenceRules "https://www.example.com/extra".toList "/path/to/icon.png?x=1#top".toList
        = some s ∧
      resolve "https://www.example.com/extra".toList "/path/to/icon.png?x=1#top".toList = .ok s) ∧
    resolve "https://www.example.com/extra".toList "/path/to/icon.png?x=1#top".toList
      = .ok "https://www.example.com/path/to/icon.png".toList :=
  ⟨by decide,
   resolve_eq_referenceRules_on_plain "https://www.example.com/extra".toList
     "/path/to/icon.png?x=1#top".toList (Or.inr (Or.inr (Or.inr (by decide)))),
   by decide⟩

/-- C3 as stated fails: on the path `../x` the rules give `https://example.com/../x`,
but `resolve` returns `https://example.com/x`, the `..` element being removed by
`ResolveReference`; on the path `my icon.png` the rules give the path component with
its space, but `resolve` returns it escaped as `%20`. -/
theorem resolve_differs_from_referenceRules :
    referenceRules "https://example.com".toList "../x".toList
      = some "https://example.com/../x".toList ∧
    resolve "https://example.com".toList "../x".toList = .ok "https://example.com/x".toList ∧
    referenceRules "https://example.com".toList "my icon.png".toList
      = some "https://example.com/my icon.png".toList ∧
    resolve "https://example.com".toList "my icon.png".toList
      = .ok "https://example.com/my%20icon.png".toList ∧
    ¬ (∀ root path : GoString, ∃ s, referenceRules root path = some s ∧
        resolve root path = .ok s) := by
  refine ⟨by decide, by decide, by decide, by decide, ?_⟩
  intro h
  obtain ⟨s, h1, h2⟩ := h "https://example.com".toList "../x".toList
  have e1 : referenceRules "https://example.com".toList "../x".toList
      = some "https://example.com/../x".toList := by decide
  have e2 : resolve "https://example.com".toList "../x".toList
      = .ok "https://example.com/x".toList := by decide
  rw [e1] at h1
  rw [e2] at h2
  simp only [Option.some.injEq] at h1
  simp only [Except.ok.injEq] at h2
  rw [← h1] at h2
  revert h2
  decide

/-- The cases of `TestResolve`, evaluated on the model. -/
theorem resolve_test_cases :
    resolve "https://www.example.com".toList "/path/to/icon.png".toList
      = .ok "https://www.example.com/path/to/icon.png".toList ∧
    resolve "https://www.example.com/".toList "/path/to/icon.png".toList
      = .ok "https://www.example.com/path/to/icon.png".toList ∧
    resolve "https://www.example.com".toList "path/to/icon.png".toList
      = .ok "https://www.example.com/path/to/icon.png".toList ∧
    resolve "www.example.com".toList "/path/to/icon.png".toList
      = .ok "https://www.example.com/path/to/icon.png".toList ∧
    resolve "https://www.example.com/extra".toList "/path/to/icon.png".toList
      = .ok "https://www.example.com/path/to/icon.png".toList ∧
    resolve "https://www.example.com".toList [] = .ok [] ∧
    resolve [] "/path/to/icon.png".toList = .ok [] := by
  decide

end pageicon
